import Mathlib

/-!
Shallow embedding of the laptools rectangular LAP solver
(`src/cpp/lap.h`, Crouse-style `augment` / `_solve`, plus the
`py_lapjv` binding's shape validation), and proofs about it.

Cost entries are modelled as exact integers extended with the IEEE
positive infinity used by the C++ code to mark forbidden edges; the
algorithm performs only addition, subtraction and order comparisons on
costs, so the integers carry its arithmetic exactly.  Duals are plain
integers (the code initialises them to 0 and they stay finite on every
state the claims quantify over).  C arrays become Lean
lists accessed with `getD` (out-of-range reads, which are undefined
behaviour in the C++, read a fixed default here).  The unbounded C
loops become fuel-indexed recursions; fuel sufficiency is proved where
the corresponding C loop terminates.
-/

namespace Laptools

/-- Cost scalar of the solver: a finite value or the IEEE `+inf`
used for forbidden edges (`INFINITY` in the C++ source). -/
inductive ECost where
  | fin : ℤ → ECost
  | inf : ECost
deriving DecidableEq, Repr

namespace ECost

/-- Addition `q + x` with a finite left operand, as IEEE would compute it
(`fin + fin` exact, `fin + inf = inf`). -/
def addL (q : ℤ) : ECost → ECost
  | .fin a => .fin (q + a)
  | .inf => .inf

/-- Subtraction `x - q` with a finite right operand (`inf - fin = inf`). -/
def subR : ECost → ℤ → ECost
  | .fin a, q => .fin (a - q)
  | .inf, _ => .inf

/-- Strict IEEE order on extended costs: `inf < inf` is false. -/
def elt : ECost → ECost → Prop
  | .fin a, .fin b => a < b
  | .fin _, .inf => True
  | .inf, _ => False

/-- Non-strict order companion of `elt`. -/
def ele : ECost → ECost → Prop
  | .fin a, .fin b => a ≤ b
  | _, .inf => True
  | .inf, .fin _ => False

instance : LT ECost := ⟨elt⟩

instance : LE ECost := ⟨ele⟩

def decLt : (a b : ECost) → Decidable (a < b)
  | .fin a, .fin b => inferInstanceAs (Decidable (a < b))
  | .fin _, .inf => .isTrue trivial
  | .inf, .fin _ => .isFalse id
  | .inf, .inf => .isFalse id

def decLe : (a b : ECost) → Decidable (a ≤ b)
  | .fin a, .fin b => inferInstanceAs (Decidable (a ≤ b))
  | .fin _, .inf => .isTrue trivial
  | .inf, .inf => .isTrue trivial
  | .inf, .fin _ => .isFalse id

instance : DecidableRel (α := ECost) (· < ·) := decLt

instance : DecidableRel (α := ECost) (· ≤ ·) := decLe

/-- Extract the finite value (junk `0` on `inf`; every use site is
guarded by a finiteness proof). -/
def toZ : ECost → ℤ
  | .fin a => a
  | .inf => 0

/-- Addition of two extended costs, `inf` absorbing (used only to sum
assignment costs in statements, not by the program). -/
def add : ECost → ECost → ECost
  | .fin a, .fin b => .fin (a + b)
  | _, _ => .inf

theorem fin_lt_fin {a b : ℤ} : (fin a < fin b) ↔ a < b := Iff.rfl

theorem fin_le_fin {a b : ℤ} : (fin a ≤ fin b) ↔ a ≤ b := Iff.rfl

theorem le_inf (a : ECost) : a ≤ inf := by cases a <;> trivial

theorem not_inf_le_fin (q : ℤ) : ¬ (inf ≤ fin q) := id

theorem fin_lt_inf (q : ℤ) : fin q < inf := trivial

theorem not_inf_lt (a : ECost) : ¬ (inf < a) := by cases a <;> exact id

theorem eleRefl (a : ECost) : a ≤ a := by
  cases a
  · exact @le_refl ℤ _ _
  · trivial

theorem eleTrans {a b c : ECost} (h1 : a ≤ b) (h2 : b ≤ c) : a ≤ c := by
  cases a <;> cases b <;> cases c <;>
    first
      | trivial
      | exact h1.elim
      | exact h2.elim
      | exact @le_trans ℤ _ _ _ _ h1 h2

theorem eleOfLt {a b : ECost} (h : a < b) : a ≤ b := by
  cases a <;> cases b <;>
    first
      | trivial
      | exact h.elim
      | exact @le_of_lt ℤ _ _ _ h

theorem eltOfLeOfLt {a b c : ECost} (h1 : a ≤ b) (h2 : b < c) : a < c := by
  cases a <;> cases b <;> cases c <;>
    first
      | trivial
      | exact h1.elim
      | exact h2.elim
      | exact @lt_of_le_of_lt ℤ _ _ _ _ h1 h2

theorem le_total_or (a b : ECost) : a ≤ b ∨ b ≤ a := by
  cases a <;> cases b
  · exact (@le_total ℤ _ _ _).imp id id
  · exact Or.inl trivial
  · exact Or.inr trivial
  · exact Or.inl trivial

theorem not_lt_iff_le {a b : ECost} : ¬ (a < b) ↔ b ≤ a := by
  cases a with
  | fin x =>
    cases b with
    | fin y => exact @not_lt ℤ _ x y
    | inf => simp [elt, ele, LT.lt, LE.le]
  | inf => cases b <;> simp [elt, ele, LT.lt, LE.le]

theorem ne_inf_of_le_fin {a : ECost} {q : ℤ} (h : a ≤ fin q) : a ≠ inf := by
  cases a
  · exact fun hh => ECost.noConfusion hh
  · exact h.elim

theorem eq_fin_of_ne_inf {a : ECost} (h : a ≠ inf) : a = fin a.toZ := by
  cases a
  · rfl
  · exact absurd rfl h

theorem addL_fin (q a : ℤ) : addL q (fin a) = fin (q + a) := rfl

theorem subR_fin (a q : ℤ) : subR (fin a) q = fin (a - q) := rfl

end ECost

/-! List access helpers fixing the defaults used throughout the model. -/

/-- Read an index array entry (`-1` is the unassigned sentinel). -/
def getI (l : List Int) (i : Nat) : Int := l.getD i (-1)

/-- Read a dual entry. -/
def getQ (l : List ℤ) (i : Nat) : ℤ := l.getD i 0

/-- Read an extended-cost entry. -/
def getE (l : List ECost) (i : Nat) : ECost := l.getD i ECost.inf

/-- Read a boolean flag entry. -/
def getB (l : List Bool) (i : Nat) : Bool := l.getD i false

theorem getD_set (l : List α) (i j : Nat) (x d : α) :
    (l.set i x).getD j d = if i = j ∧ i < l.length then x else l.getD j d := by
  induction l generalizing i j with
  | nil => simp
  | cons a t ih =>
    cases i with
    | zero =>
      cases j with
      | zero => simp
      | succ j => simp
    | succ i =>
      cases j with
      | zero => simp
      | succ j =>
        simp only [List.set_cons_succ, List.getD_cons_succ, ih i j, List.length_cons]
        exact if_congr (by omega) rfl rfl

theorem length_set' (l : List α) (i : Nat) (x : α) : (l.set i x).length = l.length :=
  List.length_set l i x

/-- Map a function of the position and the element over a list,
positions starting at `k` (models an indexed for-loop writing each
slot independently). -/
def mapIdxFrom (f : Nat → α → α) : Nat → List α → List α
  | _, [] => []
  | k, a :: t => f k a :: mapIdxFrom f (k + 1) t

theorem length_mapIdxFrom (f : Nat → α → α) (k : Nat) (l : List α) :
    (mapIdxFrom f k l).length = l.length := by
  induction l generalizing k with
  | nil => rfl
  | cons a t ih => simp [mapIdxFrom, ih]

theorem getD_mapIdxFrom (f : Nat → α → α) (k : Nat) (l : List α) (j : Nat) (d : α) :
    (mapIdxFrom f k l).getD j d =
      if j < l.length then f (k + j) (l.getD j d) else d := by
  induction l generalizing k j with
  | nil => simp [mapIdxFrom]
  | cons a t ih =>
    cases j with
    | zero => simp [mapIdxFrom]
    | succ j =>
      simp only [mapIdxFrom, List.getD_cons_succ, ih (k + 1) j, List.length_cons]
      exact if_congr (by omega) (by rw [show k + 1 + j = k + (j + 1) from by omega]) rfl

/-! The solver state mutated across `augment` calls
(`row4col`, `col4row`, `u`, `v` in `lap.h`). -/

structure LapState where
  row4col : List Int
  col4row : List Int
  u : List ℤ
  v : List ℤ
deriving Repr, DecidableEq

/-- Error outcomes of the model: `infeasible` is the C++
`throw pybind11::value_error("cost matrix is infeasible")`; `outOfFuel`
marks a C loop that has not terminated within the modelled bound. -/
inductive LapError where
  | infeasible
  | outOfFuel
deriving Repr, DecidableEq

/-- Accumulator of the column scan inside the search loop
(`path`, `shortestPathCosts`, `lowest`, `index` in the C++ source;
`index = none` models the C `index == -1`). -/
structure ScanAcc where
  path : List Int
  spc : List ECost
  lowest : ECost
  index : Option Nat
deriving Repr, DecidableEq

/-- One pass of the inner column scan of `augment` (`lap.h` lines
361-378): for each remaining column `j`, relax the tentative distance
`r = minVal + C(row_idx, j) - u(row_idx) - v(j)` and track the minimum
with the prefer-unassigned tie-break. -/
def scanGo (C : Nat → Nat → ECost) (row4col : List Int) (u v : List ℤ)
    (row_idx : Nat) (minVal : ℤ) :
    List Nat → Nat → ScanAcc → ScanAcc
  | [], _, acc => acc
  | j :: rest, it, acc =>
    let r := ((ECost.addL minVal (C row_idx j)).subR (getQ u row_idx)).subR (getQ v j)
    let impr := r < getE acc.spc j
    let path1 := if impr then acc.path.set j (Int.ofNat row_idx) else acc.path
    let spc1 := if impr then acc.spc.set j r else acc.spc
    let sj := getE spc1 j
    let hit := sj < acc.lowest ∨ (sj = acc.lowest ∧ getI row4col j = -1)
    scanGo C row4col u v row_idx minVal rest (it + 1)
      ⟨path1, spc1, if hit then sj else acc.lowest, if hit then some it else acc.index⟩

/-- Swap-with-last removal from the `remaining` vector
(`remaining[index] = remaining[--num_remaining]; remaining.resize(...)`). -/
def removeSwap (l : List Nat) (i : Nat) : List Nat :=
  (l.set i (l.getD (l.length - 1) 0)).take (l.length - 1)

/-- State threaded through iterations of the search loop. -/
structure IterState where
  remaining : List Nat
  SR : List Bool
  SC : List Bool
  path : List Int
  spc : List ECost
  row_idx : Nat
  minVal : ℤ
deriving Repr, DecidableEq

/-- Data handed from a successful search to the dual update and
augmentation steps, plus the number of loop iterations executed. -/
structure SearchResult where
  path : List Int
  spc : List ECost
  SR : List Bool
  SC : List Bool
  sink : Nat
  minVal : ℤ
  iters : Nat
deriving Repr, DecidableEq

/-- Outcome of a single iteration of the search loop. -/
inductive StepRes where
  | infeasible : StepRes
  | found : List Int → List ECost → List Bool → List Bool → Nat → ℤ → StepRes
  | again : IterState → StepRes
deriving Repr, DecidableEq

/-- One iteration of the `while (sink == -1)` loop of `augment`
(`lap.h` lines 355-397): mark `SR[row_idx]`, scan the remaining
columns, abort when the minimum is `+inf`, otherwise commit the
selected column `j`, either finishing at an unassigned sink or moving
to the row currently assigned to `j`. -/
def searchStep (C : Nat → Nat → ECost) (row4col : List Int) (u v : List ℤ)
    (st : IterState) : StepRes :=
  let SR1 := st.SR.set st.row_idx true
  let acc := scanGo C row4col u v st.row_idx st.minVal st.remaining 0
    ⟨st.path, st.spc, ECost.inf, none⟩
  match acc.index with
  | none => .infeasible
  | some it =>
    if acc.lowest = ECost.inf then .infeasible
    else
      let j := st.remaining.getD it 0
      let SC1 := st.SC.set j true
      if getI row4col j = -1 then
        .found acc.path acc.spc SR1 SC1 j acc.lowest.toZ
      else
        .again ⟨removeSwap st.remaining it, SR1, SC1, acc.path, acc.spc,
          (getI row4col j).toNat, acc.lowest.toZ⟩

/-- Fuel-indexed search loop; the fuel bound is justified by
`removeSwap` shrinking `remaining` at every iteration. -/
def searchLoop (C : Nat → Nat → ECost) (row4col : List Int) (u v : List ℤ) :
    Nat → IterState → Nat → Except LapError SearchResult
  | 0, _, _ => .error .outOfFuel
  | fuel + 1, st, iters =>
    match searchStep C row4col u v st with
    | .infeasible => .error .infeasible
    | .found path spc SR SC sink mv => .ok ⟨path, spc, SR, SC, sink, mv, iters + 1⟩
    | .again st1 => searchLoop C row4col u v fuel st1 (iters + 1)

/-- Row-dual update of `augment` (`lap.h` lines 401-410): every scanned
row gets `minVal` minus the shortest-path cost of its assigned column,
except the originally free row `cur_row` which gets the plain `minVal`. -/
def updateU (SR : List Bool) (cur_row : Nat) (minVal : ℤ) (spc : List ECost)
    (col4row : List Int) (u : List ℤ) : List ℤ :=
  mapIdxFrom (fun i ui =>
    if getB SR i then
      if i = cur_row then ui + minVal
      else ui + (minVal - (getE spc (getI col4row i).toNat).toZ)
    else ui) 0 u

/-- Column-dual update of `augment` (`lap.h` lines 412-416). -/
def updateV (SC : List Bool) (minVal : ℤ) (spc : List ECost) (v : List ℤ) : List ℤ :=
  mapIdxFrom (fun j vj =>
    if getB SC j then vj - (minVal - (getE spc j).toZ) else vj) 0 v

/-- Fuel-indexed model of the `while (1)` augmentation loop of
`augment` (`lap.h` lines 419-427): walk predecessors from the sink,
rewiring `row4col` and swapping `col4row`, until `cur_row` is reached. -/
def flipGo (path : List Int) (cur_row : Nat) :
    Nat → List Int → List Int → Nat → Except LapError (List Int × List Int)
  | 0, _, _, _ => .error .outOfFuel
  | fuel + 1, row4col, col4row, col_idx =>
    let i := (getI path col_idx).toNat
    let row4col1 := row4col.set col_idx (Int.ofNat i)
    let next := getI col4row i
    let col4row1 := col4row.set i (Int.ofNat col_idx)
    if i = cur_row then .ok (row4col1, col4row1)
    else flipGo path cur_row fuel row4col1 col4row1 next.toNat

/-- Model of `augment` from `lap.h` (lines 307-428): fresh scratch, the
shortest-path search, the dual update, then the augmentation walk. -/
def augment (C : Nat → Nat → ECost) (nr nc : Nat) (cur_row : Nat) (s : LapState) :
    Except LapError LapState :=
  let st0 : IterState :=
    ⟨List.range nc, List.replicate nr false, List.replicate nc false,
      List.replicate nc (-1), List.replicate nc ECost.inf, cur_row, 0⟩
  match searchLoop C s.row4col s.u s.v (nc + 1) st0 0 with
  | .error e => .error e
  | .ok R =>
    let u1 := updateU R.SR cur_row R.minVal R.spc s.col4row s.u
    let v1 := updateV R.SC R.minVal R.spc s.v
    match flipGo R.path cur_row (nc + 1) s.row4col s.col4row R.sink with
    | .error e => .error e
    | .ok p => .ok ⟨p.1, p.2, u1, v1⟩

/-- Row loop of `_solve` (`lap.h` lines 455-457), calling `augment` on
`count` consecutive rows starting at `r`. -/
def solveGo (C : Nat → Nat → ECost) (nr nc : Nat) :
    Nat → Nat → LapState → Except LapError LapState
  | 0, _, s => .ok s
  | count + 1, r, s =>
    match augment C nr nc r s with
    | .error e => .error e
    | .ok s1 => solveGo C nr nc count (r + 1) s1

/-- Model of `_solve` from `lap.h` (lines 437-461): zero the duals, set
both assignment arrays to `-1`, augment every row in ascending order,
and return the tuple `(row4col, col4row, u, v)`. -/
def solveTuple (C : Nat → Nat → ECost) (nr nc : Nat) :
    Except LapError (List Int × List Int × List ℤ × List ℤ) :=
  let s0 : LapState :=
    ⟨List.replicate nc (-1), List.replicate nr (-1),
      List.replicate nr 0, List.replicate nc 0⟩
  (solveGo C nr nc nr 0 s0).map fun s => (s.row4col, s.col4row, s.u, s.v)

/-- Shape-error kinds raised by the `py_lapjv` binding. -/
inductive ShapeError where
  | notTwoD
  | badDims
deriving Repr, DecidableEq

/-- Shape validation performed by the `py_lapjv` entry point before any
allocation or mutation: reject a non-2-D array, then reject
`nr <= 0 || nc <= 0` (dimensions are non-negative, hence `= 0` here).
No check relates `nr` to `nc`. -/
def pyLapjvValidate (ndims nr nc : Nat) : Except ShapeError Unit :=
  if ndims ≠ 2 then .error .notTwoD
  else if nr = 0 ∨ nc = 0 then .error .badDims
  else .ok ()

/-- Build the cost view of a literal matrix (absent entries read as
`inf`; all uses are in-bounds). -/
def matOf (m : List (List ECost)) : Nat → Nat → ECost :=
  fun i j => (m.getD i []).getD j ECost.inf

/-! Small list lemmas used by the loop proofs. -/

theorem getD_append_left (l1 l2 : List α) (i : Nat) (d : α) (h : i < l1.length) :
    (l1 ++ l2).getD i d = l1.getD i d := by
  induction l1 generalizing i with
  | nil => exact absurd h (by simp)
  | cons a t ih =>
    cases i with
    | zero => rfl
    | succ i => simpa using ih i (by simpa using h)

theorem getD_append_length (pre : List α) (x : α) (rest : List α) (d : α) :
    (pre ++ x :: rest).getD pre.length d = x := by
  induction pre with
  | nil => rfl
  | cons a t ih => simpa using ih

theorem getD_replicate (n : Nat) (x d : α) (j : Nat) :
    (List.replicate n x).getD j d = if j < n then x else d := by
  induction n generalizing j with
  | zero => simp
  | succ n ih =>
    cases j with
    | zero => simp [List.replicate]
    | succ j => simpa [List.replicate] using ih j

/-- Candidate reduced distance computed by the column scan:
`minVal + C(row_idx, j) - u(row_idx) - v(j)`. -/
def relax (C : Nat → Nat → ECost) (u v : List ℤ) (row_idx : Nat) (mv : ℤ) (j : Nat) :
    ECost :=
  ((ECost.addL mv (C row_idx j)).subR (getQ u row_idx)).subR (getQ v j)

theorem scanGo_cons (C : Nat → Nat → ECost) (row4col : List Int) (u v : List ℤ)
    (row_idx : Nat) (mv : ℤ) (j : Nat) (rest : List Nat) (it : Nat) (acc : ScanAcc) :
    scanGo C row4col u v row_idx mv (j :: rest) it acc =
      scanGo C row4col u v row_idx mv rest (it + 1)
        ⟨if relax C u v row_idx mv j < getE acc.spc j
            then acc.path.set j (Int.ofNat row_idx) else acc.path,
          if relax C u v row_idx mv j < getE acc.spc j
            then acc.spc.set j (relax C u v row_idx mv j) else acc.spc,
          if getE (if relax C u v row_idx mv j < getE acc.spc j
                then acc.spc.set j (relax C u v row_idx mv j) else acc.spc) j < acc.lowest
              ∨ (getE (if relax C u v row_idx mv j < getE acc.spc j
                    then acc.spc.set j (relax C u v row_idx mv j) else acc.spc) j = acc.lowest
                  ∧ getI row4col j = -1)
            then getE (if relax C u v row_idx mv j < getE acc.spc j
                then acc.spc.set j (relax C u v row_idx mv j) else acc.spc) j
            else acc.lowest,
          if getE (if relax C u v row_idx mv j < getE acc.spc j
                then acc.spc.set j (relax C u v row_idx mv j) else acc.spc) j < acc.lowest
              ∨ (getE (if relax C u v row_idx mv j < getE acc.spc j
                    then acc.spc.set j (relax C u v row_idx mv j) else acc.spc) j = acc.lowest
                  ∧ getI row4col j = -1)
            then some it else acc.index⟩ := rfl

/-- Index-selection invariant of the scan: either nothing was selected
yet and the running minimum is `+inf`, or the selected position points
at a processed column whose shortest-path cost equals the minimum. -/
def SelInv (rem0 : List Nat) (pre : List Nat) (acc : ScanAcc) : Prop :=
  match acc.index with
  | none => acc.lowest = ECost.inf
  | some it => it < pre.length ∧ rem0.getD it 0 ∈ pre ∧
      getE acc.spc (rem0.getD it 0) = acc.lowest

/-- Everything the loop proofs need to know about one full column scan:
lengths preserved, non-remaining entries frozen, remaining entries
relaxed against the candidate distance, the running minimum is a lower
bound of every tracked cost, and the selection invariant holds with the
whole list processed. -/
structure ScanOut (C : Nat → Nat → ECost) (u v : List ℤ) (row_idx : Nat) (mv : ℤ)
    (rem0 : List Nat) (rest : List Nat) (acc res : ScanAcc) : Prop where
  lenS : res.spc.length = acc.spc.length
  lenP : res.path.length = acc.path.length
  froz : ∀ c, c ∉ rest → getE res.spc c = getE acc.spc c ∧ getI res.path c = getI acc.path c
  upd : ∀ j ∈ rest,
      (getE res.spc j = if relax C u v row_idx mv j < getE acc.spc j
        then relax C u v row_idx mv j else getE acc.spc j) ∧
      (getI res.path j = if relax C u v row_idx mv j < getE acc.spc j
        then Int.ofNat row_idx else getI acc.path j)
  lb : ∀ j ∈ rem0, res.lowest ≤ getE res.spc j
  mono : res.lowest ≤ acc.lowest
  sel : SelInv rem0 rem0 res

theorem getE_set_self (l : List ECost) (j : Nat) (x : ECost) (h : j < l.length) :
    getE (l.set j x) j = x := by
  unfold getE
  rw [List.getD_eq_getElem?_getD, List.getElem?_set_self (by exact h)]
  rfl

theorem getE_set_ne (l : List ECost) {i j : Nat} (x : ECost) (h : i ≠ j) :
    getE (l.set i x) j = getE l j := by
  unfold getE
  rw [List.getD_eq_getElem?_getD, List.getElem?_set_ne h, ← List.getD_eq_getElem?_getD]

theorem getI_set_self (l : List Int) (j : Nat) (x : Int) (h : j < l.length) :
    getI (l.set j x) j = x := by
  unfold getI
  rw [List.getD_eq_getElem?_getD, List.getElem?_set_self (by exact h)]
  rfl

theorem getI_set_ne (l : List Int) {i j : Nat} (x : Int) (h : i ≠ j) :
    getI (l.set i x) j = getI l j := by
  unfold getI
  rw [List.getD_eq_getElem?_getD, List.getElem?_set_ne h, ← List.getD_eq_getElem?_getD]

theorem getB_set_self (l : List Bool) (j : Nat) (x : Bool) (h : j < l.length) :
    getB (l.set j x) j = x := by
  unfold getB
  rw [List.getD_eq_getElem?_getD, List.getElem?_set_self (by exact h)]
  rfl

theorem getB_set_ne (l : List Bool) {i j : Nat} (x : Bool) (h : i ≠ j) :
    getB (l.set i x) j = getB l j := by
  unfold getB
  rw [List.getD_eq_getElem?_getD, List.getElem?_set_ne h, ← List.getD_eq_getElem?_getD]

theorem scanGo_master (C : Nat → Nat → ECost) (row4col : List Int) (u v : List ℤ)
    (row_idx : Nat) (mv : ℤ) (rem0 : List Nat) (hnd : rem0.Nodup) :
    ∀ rest pre acc, rem0 = pre ++ rest →
      (∀ j ∈ rem0, j < acc.spc.length ∧ j < acc.path.length) →
      SelInv rem0 pre acc →
      (∀ j ∈ pre, acc.lowest ≤ getE acc.spc j) →
      ScanOut C u v row_idx mv rem0 rest acc
        (scanGo C row4col u v row_idx mv rest pre.length acc) := by
  intro rest
  induction rest with
  | nil =>
    intro pre acc hsplit hlen hsel hlow
    have hpre : pre = rem0 := by simpa using hsplit.symm
    refine ⟨rfl, rfl, fun c _ => ⟨rfl, rfl⟩, fun j hj => absurd hj (by simp), ?_, ?_, ?_⟩
    · intro j hj
      exact hlow j (hpre ▸ hj)
    · exact ECost.eleRefl _
    · exact hpre ▸ hsel
  | cons j rest' ih =>
    intro pre acc hsplit hlen hsel hlow
    have hjmem : j ∈ rem0 := by rw [hsplit]; simp
    have hjlen := hlen j hjmem
    have hnd' : (pre ++ j :: rest').Nodup := hsplit ▸ hnd
    have hjpre : j ∉ pre := by
      have := (List.nodup_append.mp hnd').2.2
      intro hc
      exact this hc (by simp)
    have hjrest : j ∉ rest' := by
      have := (List.nodup_append.mp hnd').2.1
      exact (List.nodup_cons.mp this).1
    rw [scanGo_cons]
    set rr := relax C u v row_idx mv j with hrr
    set spcj := getE acc.spc j with hspcj
    set spc1 := if rr < spcj then acc.spc.set j rr else acc.spc with hspc1
    set path1 := if rr < spcj then acc.path.set j (Int.ofNat row_idx) else acc.path
      with hpath1
    set sj := getE spc1 j with hsj
    set hit := (sj < acc.lowest ∨ (sj = acc.lowest ∧ getI row4col j = -1)) with hhitdef
    set lowest1 := if hit then sj else acc.lowest with hlowest1
    set index1 := if hit then some pre.length else acc.index with hindex1
    have f2 : sj = if rr < spcj then rr else spcj := by
      rw [hsj, hspc1]
      by_cases himpr : rr < spcj
      · rw [if_pos himpr, if_pos himpr, getE_set_self _ _ _ hjlen.1]
      · rw [if_neg himpr, if_neg himpr, hspcj]
    have f1 : ∀ c, c ≠ j → getE spc1 c = getE acc.spc c := by
      intro c hc
      rw [hspc1]
      by_cases himpr : rr < spcj
      · rw [if_pos himpr, getE_set_ne _ _ (fun h => hc h.symm)]
      · rw [if_neg himpr]
    have f1p : ∀ c, c ≠ j → getI path1 c = getI acc.path c := by
      intro c hc
      rw [hpath1]
      by_cases himpr : rr < spcj
      · rw [if_pos himpr, getI_set_ne _ _ (fun h => hc h.symm)]
      · rw [if_neg himpr]
    have f2p : getI path1 j = if rr < spcj then Int.ofNat row_idx else getI acc.path j := by
      rw [hpath1]
      by_cases himpr : rr < spcj
      · rw [if_pos himpr, if_pos himpr, getI_set_self _ _ _ hjlen.2]
      · rw [if_neg himpr, if_neg himpr]
    have f3s : spc1.length = acc.spc.length := by
      rw [hspc1]
      by_cases himpr : rr < spcj
      · rw [if_pos himpr, List.length_set]
      · rw [if_neg himpr]
    have f3p : path1.length = acc.path.length := by
      rw [hpath1]
      by_cases himpr : rr < spcj
      · rw [if_pos himpr, List.length_set]
      · rw [if_neg himpr]
    have f4 : lowest1 ≤ acc.lowest := by
      rw [hlowest1]
      by_cases hh : hit
      · rw [if_pos hh]
        rcases hh with hh | hh
        · exact ECost.eleOfLt hh
        · exact hh.1 ▸ ECost.eleRefl _
      · rw [if_neg hh]
        exact ECost.eleRefl _
    have f6 : lowest1 ≤ sj := by
      rw [hlowest1]
      by_cases hh : hit
      · rw [if_pos hh]
        exact ECost.eleRefl _
      · rw [if_neg hh]
        have : ¬ (sj < acc.lowest) := fun hc => hh (Or.inl hc)
        exact ECost.not_lt_iff_le.mp this
    have hgetj : rem0.getD pre.length 0 = j := by
      rw [hsplit, getD_append_length]
    have hsel1 : SelInv rem0 (pre ++ [j]) ⟨path1, spc1, lowest1, index1⟩ := by
      unfold SelInv
      rw [hindex1]
      by_cases hh : hit
      · rw [if_pos hh]
        refine ⟨by simp, by rw [hgetj]; simp, ?_⟩
        rw [hgetj, hlowest1, if_pos hh, hsj]
      · rw [if_neg hh]
        unfold SelInv at hsel
        rcases hidx : acc.index with _ | it
        · rw [hidx] at hsel
          rw [hlowest1, if_neg hh]
          exact hsel
        · rw [hidx] at hsel
          obtain ⟨hit1, hit2, hit3⟩ := hsel
          refine ⟨by simp; omega, List.mem_append.mpr (Or.inl hit2), ?_⟩
          have hne : rem0.getD it 0 ≠ j := fun h => hjpre (h ▸ hit2)
          rw [f1 _ hne, hlowest1, if_neg hh]
          exact hit3
    have hlow1 : ∀ c ∈ pre ++ [j], lowest1 ≤ getE spc1 c := by
      intro c hc
      rcases List.mem_append.mp hc with hc | hc
      · have hne : c ≠ j := fun h => hjpre (h ▸ hc)
        rw [f1 _ hne]
        exact ECost.eleTrans f4 (hlow c hc)
      · have : c = j := by simpa using hc
        rw [this, ← hsj]
        exact f6
    have hrec := ih (pre ++ [j]) ⟨path1, spc1, lowest1, index1⟩
      (by rw [hsplit]; simp)
      (by
        intro c hc
        have := hlen c hc
        exact ⟨by rw [f3s] at *; exact this.1, by rw [f3p] at *; exact this.2⟩)
      hsel1 hlow1
    have hlenpre : (pre ++ [j]).length = pre.length + 1 := by simp
    rw [hlenpre] at hrec
    refine ⟨?_, ?_, ?_, ?_, hrec.lb, ECost.eleTrans hrec.mono f4, hrec.sel⟩
    · rw [hrec.lenS]
      exact f3s
    · rw [hrec.lenP]
      exact f3p
    · intro c hc
      have hc1 : c ≠ j := fun h => hc (h ▸ by simp)
      have hc2 : c ∉ rest' := fun h => hc (by simp [h])
      rw [(hrec.froz c hc2).1, (hrec.froz c hc2).2, f1 c hc1, f1p c hc1]
      exact ⟨rfl, rfl⟩
    · intro c hc
      rcases List.mem_cons.mp hc with hc | hc
      · subst hc
        rw [(hrec.froz c hjrest).1, (hrec.froz c hjrest).2]
        exact ⟨by rw [← hsj, f2, hrr, hspcj], by rw [f2p, hrr, hspcj]⟩
      · have hcj : c ≠ j := fun h => hjrest (h ▸ hc)
        have := hrec.upd c hc
        rw [f1 c hcj, f1p c hcj] at this
        exact this

theorem set_eq_take_cons_drop (l : List α) (i : Nat) (x : α) (h : i < l.length) :
    l.set i x = l.take i ++ x :: l.drop (i + 1) := by
  induction l generalizing i with
  | nil => exact absurd h (by simp)
  | cons a t ih =>
    cases i with
    | zero => simp
    | succ i => simpa using ih i (by simpa using h)

theorem getD_eq_getElem (l : List α) (i : Nat) (d : α) (h : i < l.length) :
    l.getD i d = l[i] := by
  rw [List.getD_eq_getElem?_getD, List.getElem?_eq_getElem h]
  rfl

theorem drop_eq_getElem_cons (l : List α) (i : Nat) (h : i < l.length) :
    l.drop i = l[i] :: l.drop (i + 1) := by
  induction l generalizing i with
  | nil => exact absurd h (by simp)
  | cons a t ih =>
    cases i with
    | zero => simp
    | succ i =>
      have h2 : i < t.length := by
        simp only [List.length_cons] at h
        omega
      simp only [List.drop_succ_cons, List.getElem_cons_succ]
      exact ih i h2

theorem set_getElem_self' (l : List α) (i : Nat) (h : i < l.length) :
    l.set i l[i] = l := by
  apply List.ext_getElem
  · simp
  · intro n h1 h2
    rw [List.getElem_set]
    split
    · next heq => subst heq; rfl
    · rfl

theorem removeSwap_perm (l : List Nat) (it : Nat) (h : it < l.length) :
    l.Perm (l.getD it 0 :: removeSwap l it) := by
  rcases Nat.lt_or_ge it (l.length - 1) with hlt | hge
  · have hlast : l.length - 1 < l.length := by omega
    unfold removeSwap
    rw [getD_eq_getElem _ _ _ h, getD_eq_getElem _ _ _ hlast,
      set_eq_take_cons_drop _ _ _ h]
    have hAlen : (l.take it).length = it := by
      rw [List.length_take]
      omega
    have htake : (l.take it ++ l[l.length - 1] :: l.drop (it + 1)).take (l.length - 1) =
        l.take it ++ l[l.length - 1] :: (l.drop (it + 1)).dropLast := by
      rw [List.take_append_eq_append_take, List.take_of_length_le (by omega), hAlen]
      congr 1
      have : l.length - 1 - it = (l.drop (it + 1)).length := by
        rw [List.length_drop]
        omega
      rw [List.take_cons (by omega)]
      congr 1
      rw [List.dropLast_eq_take, List.length_drop]
      congr 1
      omega
    rw [htake]
    have hBdec : l.drop (it + 1) = (l.drop (it + 1)).dropLast ++ [l[l.length - 1]] := by
      have hlen : (l.drop (it + 1)).length = l.length - it - 1 := by
        rw [List.length_drop]
        omega
      have hne : l.drop (it + 1) ≠ [] := by
        intro hc
        rw [hc] at hlen
        simp at hlen
        omega
      conv =>
        lhs
        rw [← List.dropLast_append_getLast hne]
      congr 1
      rw [List.getLast_eq_getElem]
      congr 1
      · rw [List.getElem_drop]
        congr 1
        rw [hlen]
        omega
    have hdec : l = l.take it ++ l[it] :: l.drop (it + 1) := by
      conv =>
        lhs
        rw [← List.take_append_drop it l, drop_eq_getElem_cons l it h]
    have hp1 : (l.take it ++ l[it] :: l.drop (it + 1)).Perm
        (l[it] :: (l.take it ++ l.drop (it + 1))) := List.perm_middle
    have hp2 : (l[it] :: (l.take it ++ l.drop (it + 1))).Perm
        (l[it] :: (l.take it ++ (l[l.length - 1] :: (l.drop (it + 1)).dropLast))) := by
      refine List.Perm.cons _ ?_
      conv =>
        lhs
        rw [hBdec]
      exact List.Perm.append_left _ (List.perm_append_singleton _ _)
    conv =>
      lhs
      rw [hdec]
    exact hp1.trans hp2
  · have hit : it = l.length - 1 := by omega
    subst hit
    have hlen0 : 0 < l.length := by omega
    have hself : l.set (l.length - 1) (l.getD (l.length - 1) 0) = l := by
      rw [getD_eq_getElem _ _ _ (by omega)]
      exact set_getElem_self' l _ (by omega)
    unfold removeSwap
    rw [hself, getD_eq_getElem _ _ _ (by omega)]
    have : l.take (l.length - 1) = l.dropLast := (List.dropLast_eq_take l).symm
    rw [this]
    have hne : l ≠ [] := by
      intro hc
      rw [hc] at hlen0
      simp at hlen0
    have hdec : l = l.dropLast ++ [l.getLast hne] := (List.dropLast_append_getLast hne).symm
    have hp1 : (l.dropLast ++ [l.getLast hne]).Perm (l.getLast hne :: l.dropLast) :=
      List.perm_append_singleton _ _
    have hlastix : l.getLast hne = l[l.length - 1] := List.getLast_eq_getElem l hne
    conv =>
      lhs
      rw [hdec]
    rw [← hlastix]
    exact hp1

theorem removeSwap_length (l : List Nat) (it : Nat) (h : it < l.length) :
    (removeSwap l it).length + 1 = l.length := by
  have := (removeSwap_perm l it h).length_eq
  simpa using this.symm

theorem removeSwap_nodup (l : List Nat) (it : Nat) (h : it < l.length) (hnd : l.Nodup) :
    (removeSwap l it).Nodup ∧ l.getD it 0 ∉ removeSwap l it := by
  have := ((removeSwap_perm l it h).nodup_iff).mp hnd
  exact ⟨(List.nodup_cons.mp this).2, (List.nodup_cons.mp this).1⟩

theorem removeSwap_mem (l : List Nat) (it : Nat) (h : it < l.length) (hnd : l.Nodup) :
    ∀ x, x ∈ removeSwap l it ↔ (x ∈ l ∧ x ≠ l.getD it 0) := by
  intro x
  have hperm := removeSwap_perm l it h
  have hnotin := (removeSwap_nodup l it h hnd).2
  constructor
  · intro hx
    refine ⟨hperm.mem_iff.mpr (by simp [hx]), ?_⟩
    intro hc
    exact hnotin (hc ▸ hx)
  · intro ⟨hx, hne⟩
    have := hperm.mem_iff.mp hx
    rcases List.mem_cons.mp this with hc | hc
    · exact absurd hc hne
    · exact hc

theorem indexOf_append_of_mem {l : List Nat} {a : Nat} (h : a ∈ l) (l2 : List Nat) :
    (l ++ l2).indexOf a = l.indexOf a := by
  induction l with
  | nil => exact absurd h (by simp)
  | cons b t ih =>
    rcases eq_or_ne b a with hb | hb
    · simp [List.indexOf_cons, hb]
    · have ha : a ∈ t := by
        rcases List.mem_cons.mp h with hc | hc
        · exact absurd hc.symm hb
        · exact hc
      simp [List.indexOf_cons, hb, ih ha]

theorem indexOf_append_right_self (l : List Nat) (a : Nat) (h : a ∉ l) :
    (l ++ [a]).indexOf a = l.length := by
  induction l with
  | nil => simp
  | cons b t ih =>
    have hb : b ≠ a := fun hc => h (hc ▸ by simp)
    have ht : a ∉ t := fun hc => h (by simp [hc])
    simp [List.indexOf_cons, hb, ih ht]

theorem indexOf_lt_length_of_mem {l : List Nat} {a : Nat} (h : a ∈ l) :
    l.indexOf a < l.length := List.indexOf_lt_length.mpr h

theorem getB_true_lt {l : List Bool} {i : Nat} (h : getB l i = true) : i < l.length := by
  rcases Nat.lt_or_ge i l.length with hlt | hge
  · exact hlt
  · exfalso
    unfold getB at h
    rw [List.getD_eq_getElem?_getD, List.getElem?_eq_none hge] at h
    exact Bool.noConfusion h

theorem getB_set (l : List Bool) (i k : Nat) (x : Bool) :
    getB (l.set i x) k = if i = k ∧ i < l.length then x else getB l k := by
  unfold getB
  exact getD_set l i k x false

theorem nodup_append_singleton {l : List Nat} {a : Nat} (hnd : l.Nodup) (ha : a ∉ l) :
    (l ++ [a]).Nodup := by
  rw [List.nodup_append]
  refine ⟨hnd, List.nodup_singleton a, ?_⟩
  intro x hx hxa
  have : x = a := by simpa using hxa
  exact ha (this ▸ hx)

/-- Distance offset of a scanned row: `0` for the originally free row,
otherwise the (frozen) shortest-path cost of the row's assigned column.
This is the value `minVal` had when the row was scanned. -/
def DqS (c4r : List Int) (cur_row : Nat) (spc : List ECost) (i : Nat) : ℤ :=
  if i = cur_row then 0 else (getE spc (getI c4r i).toNat).toZ

/-- Well-formedness of an `augment` entry state: array lengths match
the matrix shape, index entries are in range, the two assignment arrays
are mutually inverse partial injections, and the duals are feasible on
every assigned row. -/
structure StateOK (C : Nat → Nat → ECost) (nr nc : Nat) (s : LapState) : Prop where
  len_r4c : s.row4col.length = nc
  len_c4r : s.col4row.length = nr
  len_u : s.u.length = nr
  len_v : s.v.length = nc
  r4c_range : ∀ j < nc, getI s.row4col j = -1 ∨
      (0 ≤ getI s.row4col j ∧ getI s.row4col j < nr)
  c4r_range : ∀ i < nr, getI s.col4row i = -1 ∨
      (0 ≤ getI s.col4row i ∧ getI s.col4row i < nc)
  inj1 : ∀ i < nr, getI s.col4row i ≠ -1 →
      getI s.row4col (getI s.col4row i).toNat = i
  inj2 : ∀ j < nc, getI s.row4col j ≠ -1 →
      getI s.col4row (getI s.row4col j).toNat = j
  feas : ∀ i < nr, getI s.col4row i ≠ -1 → ∀ j < nc,
      ECost.fin (getQ s.u i + getQ s.v j) ≤ C i j

/-- Loop invariant of the shortest-path search, at the head of each
iteration.  `ord` is ghost data: the scanned columns in scan order. -/
structure SearchInv (C : Nat → Nat → ECost) (nr nc cur_row : Nat) (s : LapState)
    (st : IterState) (ord : List Nat) : Prop where
  len_SR : st.SR.length = nr
  len_SC : st.SC.length = nc
  len_path : st.path.length = nc
  len_spc : st.spc.length = nc
  rem_nd : st.remaining.Nodup
  rem_sub : ∀ j ∈ st.remaining, j < nc
  rem_sc : ∀ j < nc, (j ∈ st.remaining ↔ getB st.SC j = false)
  ord_nd : ord.Nodup
  ord_sub : ∀ j ∈ ord, j < nc
  sc_ord : ∀ j, getB st.SC j = true ↔ j ∈ ord
  sr_src : ∀ i, getB st.SR i = true → i = cur_row ∨ ∃ j ∈ ord, getI s.row4col j = i
  sr_cur : getB st.SR cur_row = true ∨ st.row_idx = cur_row
  row_lt : st.row_idx < nr
  row_src : (st.row_idx = cur_row ∧ st.minVal = 0 ∧ ord = [] ∧
      st.SR = List.replicate nr false ∧ st.remaining = List.range nc ∧
      st.spc = List.replicate nc ECost.inf ∧ st.path = List.replicate nc (-1) ∧
      st.SC = List.replicate nc false)
    ∨ (st.row_idx ≠ cur_row ∧ getI s.col4row st.row_idx ≠ -1 ∧
      (getI s.col4row st.row_idx).toNat ∈ ord ∧
      getE st.spc (getI s.col4row st.row_idx).toNat = ECost.fin st.minVal)
  sc_le : ∀ j ∈ ord, getE st.spc j ≤ ECost.fin st.minVal ∧ getE st.spc j ≠ ECost.inf
  sc_row : ∀ j ∈ ord, getI s.row4col j ≠ -1 ∧
      (getB st.SR (getI s.row4col j).toNat = true ∨ (getI s.row4col j).toNat = st.row_idx)
  rem_ge : ∀ j ∈ st.remaining, ECost.fin st.minVal ≤ getE st.spc j
  relaxI : ∀ i, getB st.SR i = true → ∀ c < nc,
      getE st.spc c ≤ relax C s.u s.v i (DqS s.col4row cur_row st.spc i) c
  path_iff : ∀ c < nc, (getI st.path c = -1 ↔ getE st.spc c = ECost.inf)
  path_eq : ∀ c < nc, getI st.path c ≠ -1 → 0 ≤ getI st.path c ∧
      (getI st.path c).toNat < nr ∧ getB st.SR (getI st.path c).toNat = true ∧
      getE st.spc c = relax C s.u s.v (getI st.path c).toNat
        (DqS s.col4row cur_row st.spc (getI st.path c).toNat) c
  rankI : ∀ c < nc, getI st.path c ≠ -1 → (getI st.path c).toNat ≠ cur_row →
      (getI s.col4row (getI st.path c).toNat).toNat ∈ ord ∧
      (c ∈ ord → ord.indexOf (getI s.col4row (getI st.path c).toNat).toNat <
        ord.indexOf c)

/-- Facts established by a successful search, consumed by the dual
update, the augmentation walk, and the optimality argument. -/
structure SearchPost (C : Nat → Nat → ECost) (nr nc cur_row : Nat) (s : LapState)
    (path : List Int) (spc : List ECost) (SR SC : List Bool) (sink : Nat) (mv : ℤ)
    (ord : List Nat) : Prop where
  len_SR : SR.length = nr
  len_SC : SC.length = nc
  len_path : path.length = nc
  len_spc : spc.length = nc
  ord_nd : ord.Nodup
  ord_sub : ∀ j ∈ ord, j < nc
  sc_ord : ∀ j, getB SC j = true ↔ j ∈ ord
  sr_cur : getB SR cur_row = true
  sr_src : ∀ i, getB SR i = true → i = cur_row ∨ ∃ j ∈ ord, getI s.row4col j = i
  sink_lt : sink < nc
  sink_free : getI s.row4col sink = -1
  sink_sc : getB SC sink = true
  sink_spc : getE spc sink = ECost.fin mv
  sc_le : ∀ j ∈ ord, getE spc j ≤ ECost.fin mv ∧ getE spc j ≠ ECost.inf
  sc_row : ∀ j ∈ ord, j ≠ sink → getI s.row4col j ≠ -1 ∧
      getB SR (getI s.row4col j).toNat = true
  nonsc_ge : ∀ j < nc, getB SC j = false → ECost.fin mv ≤ getE spc j
  relaxP : ∀ i, getB SR i = true → ∀ c < nc,
      getE spc c ≤ relax C s.u s.v i (DqS s.col4row cur_row spc i) c
  path_iff : ∀ c < nc, (getI path c = -1 ↔ getE spc c = ECost.inf)
  path_eq : ∀ c < nc, getI path c ≠ -1 → 0 ≤ getI path c ∧
      (getI path c).toNat < nr ∧ getB SR (getI path c).toNat = true ∧
      getE spc c = relax C s.u s.v (getI path c).toNat
        (DqS s.col4row cur_row spc (getI path c).toNat) c
  rankP : ∀ c < nc, getI path c ≠ -1 → (getI path c).toNat ≠ cur_row →
      (getI s.col4row (getI path c).toNat).toNat ∈ ord ∧
      (c ∈ ord → ord.indexOf (getI s.col4row (getI path c).toNat).toNat <
        ord.indexOf c)

theorem searchInv_init (C : Nat → Nat → ECost) (nr nc cur_row : Nat) (s : LapState)
    (hcur : cur_row < nr) :
    SearchInv C nr nc cur_row s
      ⟨List.range nc, List.replicate nr false, List.replicate nc false,
        List.replicate nc (-1), List.replicate nc ECost.inf, cur_row, 0⟩ [] := by
  have hB : ∀ n i, getB (List.replicate n false) i = false := by
    intro n i
    unfold getB
    rw [getD_replicate]
    split <;> rfl
  have hE : ∀ n i, getE (List.replicate n ECost.inf) i = ECost.inf := by
    intro n i
    unfold getE
    rw [getD_replicate]
    split <;> rfl
  have hI : ∀ n i, getI (List.replicate n (-1) : List Int) i = -1 := by
    intro n i
    unfold getI
    rw [getD_replicate]
    split <;> rfl
  refine ⟨by simp, by simp, by simp, by simp, List.nodup_range nc, by simp,
    ?_, List.nodup_nil, by simp, ?_, ?_, Or.inr rfl, hcur, Or.inl ?_, by simp, by simp,
    ?_, ?_, ?_, ?_, ?_⟩
  · intro j hj
    rw [hB]
    simpa using hj
  · intro j
    rw [hB]
    simp
  · intro i hi
    rw [hB] at hi
    exact Bool.noConfusion hi
  · exact ⟨rfl, rfl, rfl, rfl, rfl, rfl, rfl, rfl⟩
  · intro j hj
    rw [hE]
    exact ECost.le_inf _
  · intro i hi
    rw [hB] at hi
    exact Bool.noConfusion hi
  · intro c hc
    rw [hI, hE]
    simp
  · intro c hc hne
    exact absurd (hI nc c) hne
  · intro c hc hne
    exact absurd (hI nc c) hne

theorem ECost.relax_ge {x : ECost} {a b m : ℤ} (h : ECost.fin (a + b) ≤ x) :
    ECost.fin m ≤ ((ECost.addL m x).subR a).subR b := by
  cases x with
  | inf => exact ECost.le_inf _
  | fin c =>
    have hc : a + b ≤ c := h
    show m ≤ m + c - a - b
    linarith

theorem ofNat_ne_negone (n : Nat) : (Int.ofNat n : Int) ≠ -1 := by
  intro h
  rw [Int.ofNat_eq_natCast] at h
  omega

theorem searchStep_eq (C : Nat → Nat → ECost) (row4col : List Int) (u v : List ℤ)
    (st : IterState) :
    searchStep C row4col u v st =
      (match (scanGo C row4col u v st.row_idx st.minVal st.remaining 0
          ⟨st.path, st.spc, ECost.inf, none⟩).index with
        | none => StepRes.infeasible
        | some it =>
          if (scanGo C row4col u v st.row_idx st.minVal st.remaining 0
              ⟨st.path, st.spc, ECost.inf, none⟩).lowest = ECost.inf
          then StepRes.infeasible
          else
            if getI row4col (st.remaining.getD it 0) = -1 then
              StepRes.found
                (scanGo C row4col u v st.row_idx st.minVal st.remaining 0
                  ⟨st.path, st.spc, ECost.inf, none⟩).path
                (scanGo C row4col u v st.row_idx st.minVal st.remaining 0
                  ⟨st.path, st.spc, ECost.inf, none⟩).spc
                (st.SR.set st.row_idx true)
                (st.SC.set (st.remaining.getD it 0) true)
                (st.remaining.getD it 0)
                (scanGo C row4col u v st.row_idx st.minVal st.remaining 0
                  ⟨st.path, st.spc, ECost.inf, none⟩).lowest.toZ
            else
              StepRes.again
                ⟨removeSwap st.remaining it,
                  st.SR.set st.row_idx true,
                  st.SC.set (st.remaining.getD it 0) true,
                  (scanGo C row4col u v st.row_idx st.minVal st.remaining 0
                    ⟨st.path, st.spc, ECost.inf, none⟩).path,
                  (scanGo C row4col u v st.row_idx st.minVal st.remaining 0
                    ⟨st.path, st.spc, ECost.inf, none⟩).spc,
                  (getI row4col (st.remaining.getD it 0)).toNat,
                  (scanGo C row4col u v st.row_idx st.minVal st.remaining 0
                    ⟨st.path, st.spc, ECost.inf, none⟩).lowest.toZ⟩) := rfl

theorem searchStep_master (C : Nat → Nat → ECost) (nr nc cur_row : Nat) (s : LapState)
    (hok : StateOK C nr nc s) (_hcur : cur_row < nr)
    (hfree : getI s.col4row cur_row = -1)
    (st : IterState) (ord : List Nat)
    (hinv : SearchInv C nr nc cur_row s st ord) :
    (∀ path spc SR SC sink mv,
        searchStep C s.row4col s.u s.v st = .found path spc SR SC sink mv →
        SearchPost C nr nc cur_row s path spc SR SC sink mv (ord ++ [sink])) ∧
    (∀ st1, searchStep C s.row4col s.u s.v st = .again st1 →
        ∃ jsel, jsel ∈ st.remaining ∧
          SearchInv C nr nc cur_row s st1 (ord ++ [jsel]) ∧
          st1.remaining.length + 1 = st.remaining.length) := by
  have hscan := scanGo_master C s.row4col s.u s.v st.row_idx st.minVal st.remaining
    hinv.rem_nd st.remaining [] ⟨st.path, st.spc, ECost.inf, none⟩ rfl
    (by
      intro j hj
      have := hinv.rem_sub j hj
      exact ⟨by rw [hinv.len_spc] at *; exact this, by rw [hinv.len_path] at *; exact this⟩)
    rfl
    (by intro j hj; exact absurd hj (by simp))
  simp only [List.length_nil] at hscan
  set A := scanGo C s.row4col s.u s.v st.row_idx st.minVal st.remaining 0
    ⟨st.path, st.spc, ECost.inf, none⟩ with hA
  rcases hidx : A.index with _ | it
  case none =>
    constructor
    · intro path spc SR SC sink mv h
      rw [searchStep_eq, ← hA, hidx] at h
      exact absurd h (by simp)
    · intro st1 h
      rw [searchStep_eq, ← hA, hidx] at h
      exact absurd h (by simp)
  case some =>
    by_cases hlowinf : A.lowest = ECost.inf
    case pos =>
      constructor
      · intro path spc SR SC sink mv h
        rw [searchStep_eq, ← hA, hidx] at h
        simp only [if_pos hlowinf] at h
        exact absurd h (by simp)
      · intro st1 h
        rw [searchStep_eq, ← hA, hidx] at h
        simp only [if_pos hlowinf] at h
        exact absurd h (by simp)
    case neg =>
      have hsel := hscan.sel
      unfold SelInv at hsel
      simp only [hidx] at hsel
      obtain ⟨hit_lt, hjmem, hjlow⟩ := hsel
      set jstar := st.remaining.getD it 0 with hjstar
      set mv1 := A.lowest.toZ with hmv1
      have hlowfin : A.lowest = ECost.fin mv1 := ECost.eq_fin_of_ne_inf hlowinf
      have hjnc : jstar < nc := hinv.rem_sub jstar hjmem
      have hjspc : getE A.spc jstar = ECost.fin mv1 := by rw [hjlow, hlowfin]
      have hjnotsc : getB st.SC jstar = false := (hinv.rem_sc jstar hjnc).mp hjmem
      have hjnotord : jstar ∉ ord := by
        intro hc
        rw [(hinv.sc_ord jstar).mpr hc] at hjnotsc
        exact Bool.noConfusion hjnotsc
      have hord1nd : (ord ++ [jstar]).Nodup := nodup_append_singleton hinv.ord_nd hjnotord
      have hord1sub : ∀ j ∈ ord ++ [jstar], j < nc := by
        intro j hj
        rcases List.mem_append.mp hj with hj | hj
        · exact hinv.ord_sub j hj
        · have : j = jstar := by simpa using hj
          exact this ▸ hjnc
      have hD2 : ∀ j ∈ st.remaining, ECost.fin mv1 ≤ getE A.spc j := by
        intro j hj
        have := hscan.lb j hj
        rwa [hlowfin] at this
      have hD5a : ∀ c, getE A.spc c ≤ getE st.spc c := by
        intro c
        by_cases hc : c ∈ st.remaining
        · have := (hscan.upd c hc).1
          rw [this]
          by_cases himp : relax C s.u s.v st.row_idx st.minVal c < getE st.spc c
          · rw [if_pos himp]
            exact ECost.eleOfLt himp
          · rw [if_neg himp]
            exact ECost.eleRefl _
        · rw [(hscan.froz c hc).1]
          exact ECost.eleRefl _
      have hordfroz : ∀ j ∈ ord, getE A.spc j = getE st.spc j ∧ getI A.path j = getI st.path j := by
        intro j hj
        refine hscan.froz j ?_
        intro hc
        have h1 := (hinv.rem_sc j (hinv.ord_sub j hj)).mp hc
        rw [(hinv.sc_ord j).mpr hj] at h1
        exact Bool.noConfusion h1
      have hc4rmem : ∀ i, (getB st.SR i = true ∨ i = st.row_idx) → i ≠ cur_row →
          getI s.col4row i ≠ -1 ∧ (getI s.col4row i).toNat ∈ ord ∧
          getI s.row4col (getI s.col4row i).toNat = (i : Int) := by
        intro i hi hne
        rcases hi with hi | hi
        · rcases hinv.sr_src i hi with hc | ⟨j, hj, hji⟩
          · exact absurd hc hne
          · have hjnc' : j < nc := hinv.ord_sub j hj
            have hilt : i < nr := by
              have := getB_true_lt hi
              rwa [hinv.len_SR] at this
            have hne1 : getI s.row4col j ≠ -1 := by
              rw [hji]
              omega
            have hinj := hok.inj2 j hjnc' hne1
            rw [hji] at hinj
            have htn : ((i : Int)).toNat = i := by omega
            rw [htn] at hinj
            refine ⟨by rw [hinj]; omega, ?_, ?_⟩
            · rw [hinj]
              have : (j : Int).toNat = j := by omega
              rw [this]
              exact hj
            · rw [hinj]
              have : (j : Int).toNat = j := by omega
              rw [this, hji]
        · subst hi
          rcases hinv.row_src with ⟨hc, _⟩ | ⟨hne1, hc1, hc2, hc3⟩
          · exact absurd hc hne
          · refine ⟨hc1, hc2, ?_⟩
            exact hok.inj1 st.row_idx hinv.row_lt hc1
      have hDq_stable : ∀ i, (getB st.SR i = true ∨ i = st.row_idx) →
          DqS s.col4row cur_row A.spc i = DqS s.col4row cur_row st.spc i := by
        intro i hi
        unfold DqS
        by_cases hic : i = cur_row
        · rw [if_pos hic, if_pos hic]
        · rw [if_neg hic, if_neg hic]
          obtain ⟨hne1, hmem, _⟩ := hc4rmem i hi hic
          rw [(hordfroz _ hmem).1]
      have hDrow : DqS s.col4row cur_row A.spc st.row_idx = st.minVal := by
        rcases hinv.row_src with ⟨hc, hmv, _⟩ | ⟨hne1, hc1, hc2, hc3⟩
        · unfold DqS
          rw [if_pos hc, hmv]
        · unfold DqS
          rw [if_neg hne1, (hordfroz _ hc2).1, hc3]
          rfl
      have hD5new : ∀ c, c < nc →
          getE A.spc c ≤ relax C s.u s.v st.row_idx st.minVal c := by
        intro c hc
        by_cases hcm : c ∈ st.remaining
        · rw [(hscan.upd c hcm).1]
          by_cases himp : relax C s.u s.v st.row_idx st.minVal c < getE st.spc c
          · rw [if_pos himp]
            exact ECost.eleRefl _
          · rw [if_neg himp]
            exact ECost.not_lt_iff_le.mp himp
        · have hscc : getB st.SC c = true := by
            rcases hb : getB st.SC c with _ | _
            · exact absurd ((hinv.rem_sc c hc).mpr hb) hcm
            · rfl
          have hcord : c ∈ ord := (hinv.sc_ord c).mp hscc
          rcases hinv.row_src with ⟨_, _, hordnil, _⟩ | ⟨hne1, hc1, hc2, hc3⟩
          · rw [hordnil] at hcord
            exact absurd hcord (by simp)
          · have hred : ECost.fin st.minVal ≤ relax C s.u s.v st.row_idx st.minVal c := by
              unfold relax
              exact ECost.relax_ge (hok.feas st.row_idx hinv.row_lt hc1 c hc)
            rw [(hscan.froz c hcm).1]
            exact ECost.eleTrans (hinv.sc_le c hcord).1 hred
      have hD3mono : ord ≠ [] → ECost.fin st.minVal ≤ ECost.fin mv1 := by
        intro hords
        rcases hinv.row_src with ⟨_, _, hordnil, _⟩ | ⟨hne1, hc1, hc2, hc3⟩
        · exact absurd hordnil hords
        · rw [← hjspc, (hscan.upd jstar hjmem).1]
          by_cases himp : relax C s.u s.v st.row_idx st.minVal jstar < getE st.spc jstar
          · rw [if_pos himp]
            unfold relax
            exact ECost.relax_ge (hok.feas st.row_idx hinv.row_lt hc1 jstar hjnc)
          · rw [if_neg himp]
            exact hinv.rem_ge jstar hjmem
      set SR1 := st.SR.set st.row_idx true with hSR1def
      have hSR1row : getB SR1 st.row_idx = true := by
        rw [hSR1def, getB_set, if_pos ⟨rfl, by rw [hinv.len_SR]; exact hinv.row_lt⟩]
      have hSR1mono : ∀ i, getB st.SR i = true → getB SR1 i = true := by
        intro i hi
        rw [hSR1def, getB_set]
        split
        · rfl
        · exact hi
      have hSR1elim : ∀ i, getB SR1 i = true → getB st.SR i = true ∨ i = st.row_idx := by
        intro i hi
        rw [hSR1def, getB_set] at hi
        by_cases h : st.row_idx = i ∧ st.row_idx < st.SR.length
        · exact Or.inr h.1.symm
        · rw [if_neg h] at hi
          exact Or.inl hi
      have hSR1len : SR1.length = nr := by
        rw [hSR1def, List.length_set, hinv.len_SR]
      set SC1 := st.SC.set jstar true with hSC1def
      have hSC1len : SC1.length = nc := by
        rw [hSC1def, List.length_set, hinv.len_SC]
      have hSC1j : getB SC1 jstar = true := by
        rw [hSC1def, getB_set, if_pos ⟨rfl, by rw [hinv.len_SC]; exact hjnc⟩]
      have hSC1ne : ∀ k, k ≠ jstar → getB SC1 k = getB st.SC k := by
        intro k hk
        rw [hSC1def, getB_set, if_neg (fun h => hk h.1.symm)]
      have hSC1elim : ∀ k, getB SC1 k = true → getB st.SC k = true ∨ k = jstar := by
        intro k hk
        by_cases h : k = jstar
        · exact Or.inr h
        · rw [hSC1ne k h] at hk
          exact Or.inl hk
      have hsc_ord1 : ∀ k, getB SC1 k = true ↔ k ∈ ord ++ [jstar] := by
        intro k
        constructor
        · intro hk
          rcases hSC1elim k hk with h | h
          · exact List.mem_append_left _ ((hinv.sc_ord k).mp h)
          · exact h ▸ List.mem_append_right _ (by simp)
        · intro hk
          rcases List.mem_append.mp hk with h | h
          · have hkj : k ≠ jstar := fun hkk => hjnotord (hkk ▸ h)
            rw [hSC1ne k hkj]
            exact (hinv.sc_ord k).mpr h
          · have : k = jstar := by simpa using h
            exact this ▸ hSC1j
      have hsr_cur1 : getB SR1 cur_row = true := by
        rcases hinv.sr_cur with h | h
        · exact hSR1mono _ h
        · rw [← h]
          exact hSR1row
      have hsr_src1 : ∀ i, getB SR1 i = true →
          i = cur_row ∨ ∃ j ∈ ord ++ [jstar], getI s.row4col j = (i : Int) := by
        intro i hi
        rcases hSR1elim i hi with h | h
        · rcases hinv.sr_src i h with h1 | ⟨j, hj, hj2⟩
          · exact Or.inl h1
          · exact Or.inr ⟨j, List.mem_append_left _ hj, hj2⟩
        · by_cases hic : i = cur_row
          · exact Or.inl hic
          · obtain ⟨h1, h2, h3⟩ := hc4rmem i (Or.inr h) hic
            exact Or.inr ⟨(getI s.col4row i).toNat, List.mem_append_left _ h2, h3⟩
      have hrelax1 : ∀ i, getB SR1 i = true → ∀ c, c < nc →
          getE A.spc c ≤ relax C s.u s.v i (DqS s.col4row cur_row A.spc i) c := by
        intro i hi c hc
        rcases hSR1elim i hi with h | h
        · rw [hDq_stable i (Or.inl h)]
          exact ECost.eleTrans (hD5a c) (hinv.relaxI i h c hc)
        · subst h
          rw [hDrow]
          exact hD5new c hc
      have hform : ∀ c, (getI A.path c = Int.ofNat st.row_idx ∧
            getE A.spc c = relax C s.u s.v st.row_idx st.minVal c ∧
            getE A.spc c ≠ ECost.inf ∧ c ∈ st.remaining) ∨
          (getI A.path c = getI st.path c ∧ getE A.spc c = getE st.spc c) := by
        intro c
        by_cases hcm : c ∈ st.remaining
        · obtain ⟨hs, hp⟩ := hscan.upd c hcm
          by_cases himp : relax C s.u s.v st.row_idx st.minVal c < getE st.spc c
          · left
            refine ⟨by rw [hp, if_pos himp], by rw [hs, if_pos himp], ?_, hcm⟩
            rw [hs, if_pos himp]
            intro hcon
            rw [hcon] at himp
            exact ECost.not_inf_lt _ himp
          · right
            exact ⟨by rw [hp, if_neg himp], by rw [hs, if_neg himp]⟩
        · right
          exact ⟨(hscan.froz c hcm).2, (hscan.froz c hcm).1⟩
      have hpath_iff1 : ∀ c, c < nc → (getI A.path c = -1 ↔ getE A.spc c = ECost.inf) := by
        intro c hc
        rcases hform c with ⟨h1, _, h3, _⟩ | ⟨h1, h2⟩
        · rw [h1]
          constructor
          · intro hcon
            exact absurd hcon (ofNat_ne_negone _)
          · intro hcon
            exact absurd hcon h3
        · rw [h1, h2]
          exact hinv.path_iff c hc
      have hpath_eq1 : ∀ c, c < nc → getI A.path c ≠ -1 →
          0 ≤ getI A.path c ∧ (getI A.path c).toNat < nr ∧
          getB SR1 (getI A.path c).toNat = true ∧
          getE A.spc c = relax C s.u s.v (getI A.path c).toNat
            (DqS s.col4row cur_row A.spc (getI A.path c).toNat) c := by
        intro c hc hne
        rcases hform c with ⟨h1, h2, _, _⟩ | ⟨h1, h2⟩
        · rw [h1]
          have htn : (Int.ofNat st.row_idx).toNat = st.row_idx := by
            rw [Int.ofNat_eq_natCast]
            omega
          rw [htn]
          refine ⟨by rw [Int.ofNat_eq_natCast]; omega, hinv.row_lt, hSR1row, ?_⟩
          rw [hDrow]
          exact h2
        · rw [h1, h2]
          rw [h1] at hne
          obtain ⟨o1, o2, o3, o4⟩ := hinv.path_eq c hc hne
          exact ⟨o1, o2, hSR1mono _ o3, by rw [hDq_stable _ (Or.inl o3)]; exact o4⟩
      have hrank1 : ∀ c, c < nc → getI A.path c ≠ -1 → (getI A.path c).toNat ≠ cur_row →
          ((getI s.col4row (getI A.path c).toNat).toNat ∈ ord ++ [jstar] ∧
          (c ∈ ord ++ [jstar] →
            (ord ++ [jstar]).indexOf (getI s.col4row (getI A.path c).toNat).toNat <
            (ord ++ [jstar]).indexOf c)) := by
        intro c hc hne hnecur
        have hlift : ∀ x, x ∈ ord → c ∈ ord ++ [jstar] →
            (ord ++ [jstar]).indexOf x < (ord ++ [jstar]).indexOf c →
            True := fun _ _ _ _ => trivial
        rcases hform c with ⟨h1, _, _, hcm⟩ | ⟨h1, _⟩
        · have htn : (getI A.path c).toNat = st.row_idx := by
            rw [h1, Int.ofNat_eq_natCast]
            omega
          rw [htn]
          rw [htn] at hnecur
          obtain ⟨hx1, hx2, _⟩ := hc4rmem st.row_idx (Or.inr rfl) hnecur
          refine ⟨List.mem_append_left _ hx2, ?_⟩
          intro hcord1
          rcases List.mem_append.mp hcord1 with hcord | hcord
          · exfalso
            have h5 := (hinv.rem_sc c hc).mp hcm
            rw [(hinv.sc_ord c).mpr hcord] at h5
            exact Bool.noConfusion h5
          · have hcj : c = jstar := by simpa using hcord
            rw [hcj, indexOf_append_right_self ord jstar hjnotord,
              indexOf_append_of_mem hx2]
            exact indexOf_lt_length_of_mem hx2
        · rw [h1]
          rw [h1] at hne hnecur
          obtain ⟨hx2, hrk⟩ := hinv.rankI c hc hne hnecur
          refine ⟨List.mem_append_left _ hx2, ?_⟩
          intro hcord1
          rcases List.mem_append.mp hcord1 with hcord | hcord
          · rw [indexOf_append_of_mem hx2, indexOf_append_of_mem hcord]
            exact hrk hcord
          · have hcj : c = jstar := by simpa using hcord
            have hic2 : (ord ++ [jstar]).indexOf c = ord.length := by
              rw [hcj]
              exact indexOf_append_right_self ord jstar hjnotord
            rw [hic2, indexOf_append_of_mem hx2]
            exact indexOf_lt_length_of_mem hx2
      have hsc_le1 : ∀ j ∈ ord ++ [jstar],
          getE A.spc j ≤ ECost.fin mv1 ∧ getE A.spc j ≠ ECost.inf := by
        intro j hj
        rcases List.mem_append.mp hj with hj | hj
        · have hords : ord ≠ [] := by
            intro hcon
            rw [hcon] at hj
            exact absurd hj (by simp)
          obtain ⟨ho1, ho2⟩ := hinv.sc_le j hj
          rw [(hordfroz j hj).1]
          exact ⟨ECost.eleTrans ho1 (hD3mono hords), ho2⟩
        · have : j = jstar := by simpa using hj
          rw [this, hjspc]
          exact ⟨ECost.eleRefl _, fun h => ECost.noConfusion h⟩
      have hsc_row1 : ∀ j ∈ ord, getI s.row4col j ≠ -1 ∧
          getB SR1 (getI s.row4col j).toNat = true := by
        intro j hj
        obtain ⟨h1, h2⟩ := hinv.sc_row j hj
        refine ⟨h1, ?_⟩
        rcases h2 with h2 | h2
        · exact hSR1mono _ h2
        · rw [h2]
          exact hSR1row
      have hlenAs : A.spc.length = nc := by
        have := hscan.lenS
        simpa [hinv.len_spc] using this
      have hlenAp : A.path.length = nc := by
        have := hscan.lenP
        simpa [hinv.len_path] using this
      constructor
      · intro path spc SR SC sink mv h
        rw [searchStep_eq, ← hA, hidx] at h
        simp only [if_neg hlowinf] at h
        rw [← hjstar] at h
        by_cases hfr : getI s.row4col jstar = -1
        case neg =>
          rw [if_neg hfr] at h
          exact absurd h (by simp)
        case pos =>
          rw [if_pos hfr] at h
          injection h with e1 e2 e3 e4 e5 e6
          subst e1
          subst e2
          subst e3
          subst e4
          subst e5
          subst e6
          refine ⟨hSR1len, hSC1len, hlenAp, hlenAs, hord1nd, hord1sub, hsc_ord1,
            hsr_cur1, hsr_src1, hjnc, hfr, hSC1j, hjspc, hsc_le1, ?_, ?_,
            hrelax1, hpath_iff1, hpath_eq1, hrank1⟩
          · intro j hj hne
            rcases List.mem_append.mp hj with hj1 | hj1
            · exact hsc_row1 j hj1
            · exact absurd (by simpa using hj1) hne
          · intro j hj hsc
            have hnej : j ≠ jstar := by
              intro hc
              rw [hc, hSC1j] at hsc
              exact Bool.noConfusion hsc
            have h1 : getB st.SC j = false := by
              rw [← hSC1ne j hnej]
              exact hsc
            exact hD2 j ((hinv.rem_sc j hj).mpr h1)
      · intro st1 h
        rw [searchStep_eq, ← hA, hidx] at h
        simp only [if_neg hlowinf] at h
        rw [← hjstar] at h
        by_cases hfr : getI s.row4col jstar = -1
        case pos =>
          rw [if_pos hfr] at h
          exact absurd h (by simp)
        case neg =>
          rw [if_neg hfr] at h
          injection h with h1
          subst h1
          have hrowlt : (getI s.row4col jstar).toNat < nr := by
            rcases hok.r4c_range jstar hjnc with hr | hr
            · exact absurd hr hfr
            · omega
          have hinj := hok.inj2 jstar hjnc hfr
          have hrownecur : (getI s.row4col jstar).toNat ≠ cur_row := by
            intro hc
            rw [hc] at hinj
            rw [hfree] at hinj
            omega
          have hc4rrow : getI s.col4row (getI s.row4col jstar).toNat = (jstar : Int) := hinj
          have hc4rrow_ne : getI s.col4row (getI s.row4col jstar).toNat ≠ -1 := by
            rw [hc4rrow]
            omega
          have hc4rrow_toNat : (getI s.col4row (getI s.row4col jstar).toNat).toNat = jstar := by
            rw [hc4rrow]
            omega
          refine ⟨jstar, hjmem, ?_, removeSwap_length st.remaining it hit_lt⟩
          refine ⟨hSR1len, hSC1len, hlenAp, hlenAs,
            (removeSwap_nodup st.remaining it hit_lt hinv.rem_nd).1, ?_, ?_,
            hord1nd, hord1sub, hsc_ord1, hsr_src1, Or.inl hsr_cur1, hrowlt,
            Or.inr ⟨hrownecur, hc4rrow_ne, ?_, ?_⟩, hsc_le1, ?_, ?_,
            hrelax1, hpath_iff1, hpath_eq1, hrank1⟩
          · intro j hj
            have := (removeSwap_mem st.remaining it hit_lt hinv.rem_nd j).mp hj
            exact hinv.rem_sub j this.1
          · intro j hj
            rw [removeSwap_mem st.remaining it hit_lt hinv.rem_nd j]
            constructor
            · intro ⟨hm, hnej⟩
              rw [hSC1ne j hnej]
              exact (hinv.rem_sc j hj).mp hm
            · intro hsc
              have hnej : j ≠ jstar := by
                intro hc
                rw [hc, hSC1j] at hsc
                exact Bool.noConfusion hsc
              rw [hSC1ne j hnej] at hsc
              exact ⟨(hinv.rem_sc j hj).mpr hsc, hnej⟩
          · rw [hc4rrow_toNat]
            exact List.mem_append_right _ (by simp)
          · rw [hc4rrow_toNat]
            exact hjspc
          · intro j hj
            rcases List.mem_append.mp hj with hj1 | hj1
            · obtain ⟨hn1, hn2⟩ := hsc_row1 j hj1
              exact ⟨hn1, Or.inl hn2⟩
            · have hje : j = jstar := by simpa using hj1
              subst hje
              exact ⟨hfr, Or.inr rfl⟩
          · intro j hj
            have := (removeSwap_mem st.remaining it hit_lt hinv.rem_nd j).mp hj
            exact hD2 j this.1

theorem searchLoop_succ (C : Nat → Nat → ECost) (row4col : List Int) (u v : List ℤ)
    (fuel : Nat) (st : IterState) (iters : Nat) :
    searchLoop C row4col u v (fuel + 1) st iters =
      match searchStep C row4col u v st with
      | .infeasible => .error .infeasible
      | .found path spc SR SC sink mv => .ok ⟨path, spc, SR, SC, sink, mv, iters + 1⟩
      | .again st1 => searchLoop C row4col u v fuel st1 (iters + 1) := rfl

theorem scanGo_index_lt (C : Nat → Nat → ECost) (row4col : List Int) (u v : List ℤ)
    (row_idx : Nat) (mv : ℤ) :
    ∀ rest it0 acc, (∀ k, acc.index = some k → k < it0) →
      ∀ k, (scanGo C row4col u v row_idx mv rest it0 acc).index = some k →
        k < it0 + rest.length := by
  intro rest
  induction rest with
  | nil =>
    intro it0 acc hacc k hk
    have := hacc k hk
    simpa using this
  | cons j rest' ih =>
    intro it0 acc hacc k hk
    rw [scanGo_cons] at hk
    have hbnd := ih (it0 + 1) _ (by
      intro k1 hk1
      simp only at hk1
      by_cases hh : (getE (if relax C u v row_idx mv j < getE acc.spc j
            then acc.spc.set j (relax C u v row_idx mv j) else acc.spc) j < acc.lowest
          ∨ (getE (if relax C u v row_idx mv j < getE acc.spc j
              then acc.spc.set j (relax C u v row_idx mv j) else acc.spc) j = acc.lowest
            ∧ getI row4col j = -1))
      · rw [if_pos hh] at hk1
        have : k1 = it0 := by
          have := hk1
          injection this with hh1
          omega
        omega
      · rw [if_neg hh] at hk1
        have := hacc k1 hk1
        omega) k hk
    simp only [List.length_cons]
    omega

theorem searchStep_again_shrinks (C : Nat → Nat → ECost) (row4col : List Int)
    (u v : List ℤ) (st : IterState) (st1 : IterState)
    (h : searchStep C row4col u v st = .again st1) :
    st1.remaining.length + 1 = st.remaining.length := by
  rcases hidx : (scanGo C row4col u v st.row_idx st.minVal st.remaining 0
      ⟨st.path, st.spc, ECost.inf, none⟩).index with _ | it
  · rw [searchStep_eq, hidx] at h
    exact absurd h (by simp)
  · have hit : it < st.remaining.length := by
      have := scanGo_index_lt C row4col u v st.row_idx st.minVal st.remaining 0
        ⟨st.path, st.spc, ECost.inf, none⟩ (by intro k hk; exact absurd hk (by simp)) it hidx
      omega
    rw [searchStep_eq, hidx] at h
    by_cases hlowinf : (scanGo C row4col u v st.row_idx st.minVal st.remaining 0
        ⟨st.path, st.spc, ECost.inf, none⟩).lowest = ECost.inf
    · simp only [if_pos hlowinf] at h
      exact absurd h (by simp)
    · simp only [if_neg hlowinf] at h
      by_cases hfr : getI row4col (st.remaining.getD it 0) = -1
      · rw [if_pos hfr] at h
        exact absurd h (by simp)
      · rw [if_neg hfr] at h
        injection h with h1
        rw [← h1]
        exact removeSwap_length st.remaining it hit

theorem searchStep_found_nonempty (C : Nat → Nat → ECost) (row4col : List Int)
    (u v : List ℤ) (st : IterState) (path : List Int) (spc : List ECost)
    (SR SC : List Bool) (sink : Nat) (mv : ℤ)
    (h : searchStep C row4col u v st = .found path spc SR SC sink mv) :
    0 < st.remaining.length := by
  rcases hidx : (scanGo C row4col u v st.row_idx st.minVal st.remaining 0
      ⟨st.path, st.spc, ECost.inf, none⟩).index with _ | it
  · rw [searchStep_eq, hidx] at h
    exact absurd h (by simp)
  · have hit : it < st.remaining.length := by
      have := scanGo_index_lt C row4col u v st.row_idx st.minVal st.remaining 0
        ⟨st.path, st.spc, ECost.inf, none⟩ (by intro k hk; exact absurd hk (by simp)) it hidx
      omega
    omega

theorem searchLoop_fuel (C : Nat → Nat → ECost) (row4col : List Int) (u v : List ℤ) :
    ∀ fuel st iters, st.remaining.length < fuel →
      (searchLoop C row4col u v fuel st iters ≠ .error .outOfFuel) ∧
      (∀ R, searchLoop C row4col u v fuel st iters = .ok R →
        R.iters ≤ iters + st.remaining.length) := by
  intro fuel
  induction fuel with
  | zero =>
    intro st iters h
    exact absurd h (by omega)
  | succ fuel ih =>
    intro st iters hlt
    rcases hstep : searchStep C row4col u v st with _ | ⟨p, sp, srx, scx, sk, mvx⟩ | ⟨st1⟩
    · rw [searchLoop_succ, hstep]
      exact ⟨by simp, by intro R hR; exact absurd hR (by simp)⟩
    · rw [searchLoop_succ, hstep]
      refine ⟨by simp, ?_⟩
      intro R hR
      have hne := searchStep_found_nonempty C row4col u v st p sp srx scx sk mvx hstep
      have : R = ⟨p, sp, srx, scx, sk, mvx, iters + 1⟩ := by
        injection hR with h1
        exact h1.symm
      rw [this]
      simp only
      omega
    · rw [searchLoop_succ, hstep]
      have hshr := searchStep_again_shrinks C row4col u v st st1 hstep
      have hih := ih st1 (iters + 1) (by omega)
      refine ⟨hih.1, ?_⟩
      intro R hR
      have := hih.2 R hR
      omega

theorem searchLoop_master (C : Nat → Nat → ECost) (nr nc cur_row : Nat) (s : LapState)
    (hok : StateOK C nr nc s) (hcur : cur_row < nr)
    (hfree : getI s.col4row cur_row = -1) :
    ∀ fuel st ord iters R, SearchInv C nr nc cur_row s st ord →
      searchLoop C s.row4col s.u s.v fuel st iters = .ok R →
      ∃ ord1, SearchPost C nr nc cur_row s R.path R.spc R.SR R.SC R.sink R.minVal ord1 := by
  intro fuel
  induction fuel with
  | zero =>
    intro st ord iters R hinv hR
    exact absurd hR (by simp [searchLoop])
  | succ fuel ih =>
    intro st ord iters R hinv hR
    rcases hstep : searchStep C s.row4col s.u s.v st with _ | ⟨p, sp, srx, scx, sk, mvx⟩ | ⟨st1⟩
    · rw [searchLoop_succ, hstep] at hR
      exact absurd hR (by simp)
    · rw [searchLoop_succ, hstep] at hR
      have hRe : R = ⟨p, sp, srx, scx, sk, mvx, iters + 1⟩ := by
        injection hR with h1
        exact h1.symm
      have hpost := (searchStep_master C nr nc cur_row s hok hcur hfree st ord hinv).1
        p sp srx scx sk mvx hstep
      rw [hRe]
      exact ⟨ord ++ [sk], hpost⟩
    · rw [searchLoop_succ, hstep] at hR
      obtain ⟨jsel, _, hinv1, _⟩ :=
        (searchStep_master C nr nc cur_row s hok hcur hfree st ord hinv).2 st1 hstep
      exact ih st1 (ord ++ [jsel]) (iters + 1) R hinv1 hR

/-- The alternating path walked by the augmentation loop, as the list
of (column, row) pairs it rewires: the first column is the sink, each
row is the predecessor `path` row of its column, the next column is the
row's current assignment, and the last row is `cur_row`. -/
inductive ChainOK (path c4r0 : List Int) (cur_row : Nat) : Nat → List (Nat × Nat) → Prop where
  | last : ∀ c, (getI path c).toNat = cur_row → ChainOK path c4r0 cur_row c [(c, cur_row)]
  | step : ∀ c i rest, (getI path c).toNat = i → i ≠ cur_row →
      ChainOK path c4r0 cur_row (getI c4r0 i).toNat rest →
      ChainOK path c4r0 cur_row c ((c, i) :: rest)

theorem chain_head {path c4r0 : List Int} {cur_row c : Nat} {pairs : List (Nat × Nat)}
    (h : ChainOK path c4r0 cur_row c pairs) :
    ∃ i rest, pairs = (c, i) :: rest ∧ (getI path c).toNat = i := by
  cases h with
  | last c hc => exact ⟨cur_row, [], rfl, hc⟩
  | step c i rest hc hne hr => exact ⟨i, rest, rfl, hc⟩

theorem chain_succ_col {path c4r0 : List Int} {cur_row : Nat} :
    ∀ {c : Nat} {pairs : List (Nat × Nat)}, ChainOK path c4r0 cur_row c pairs →
      ∀ q ∈ pairs, q.2 ≠ cur_row →
        (getI c4r0 q.2).toNat ∈ (pairs.map Prod.fst).tail := by
  intro c pairs h
  induction h with
  | last c hc =>
    intro q hq hne
    have : q = (c, cur_row) := by simpa using hq
    rw [this] at hne
    exact absurd rfl hne
  | step c i rest hc hne hr ih =>
    intro q hq hqne
    rcases List.mem_cons.mp hq with hq1 | hq1
    · obtain ⟨i1, rest1, hrest, _⟩ := chain_head hr
      rw [hq1]
      simp only [List.map_cons, List.tail_cons]
      rw [hrest]
      simp
    · have := ih q hq1 hqne
      simp only [List.map_cons, List.tail_cons]
      exact List.mem_of_mem_tail this

/-- All writes `row4col[c_t] := i_t` performed by the augmentation loop. -/
def writeR (pairs : List (Nat × Nat)) (r4c : List Int) : List Int :=
  pairs.foldl (fun A p => A.set p.1 (Int.ofNat p.2)) r4c

/-- All writes `col4row[i_t] := c_t` performed by the augmentation loop. -/
def writeC (pairs : List (Nat × Nat)) (c4r : List Int) : List Int :=
  pairs.foldl (fun A p => A.set p.2 (Int.ofNat p.1)) c4r

theorem writeR_length (pairs : List (Nat × Nat)) (r4c : List Int) :
    (writeR pairs r4c).length = r4c.length := by
  induction pairs generalizing r4c with
  | nil => rfl
  | cons p rest ih =>
    unfold writeR at *
    simp only [List.foldl_cons]
    rw [ih]
    exact List.length_set _ _ _

theorem writeC_length (pairs : List (Nat × Nat)) (c4r : List Int) :
    (writeC pairs c4r).length = c4r.length := by
  induction pairs generalizing c4r with
  | nil => rfl
  | cons p rest ih =>
    unfold writeC at *
    simp only [List.foldl_cons]
    rw [ih]
    exact List.length_set _ _ _

theorem writeR_frame (pairs : List (Nat × Nat)) (r4c : List Int) (c : Nat)
    (h : ∀ p ∈ pairs, p.1 ≠ c) : getI (writeR pairs r4c) c = getI r4c c := by
  induction pairs generalizing r4c with
  | nil => rfl
  | cons p rest ih =>
    unfold writeR at *
    simp only [List.foldl_cons]
    rw [ih _ (fun q hq => h q (by simp [hq]))]
    exact getI_set_ne _ _ (h p (by simp))

theorem writeC_frame (pairs : List (Nat × Nat)) (c4r : List Int) (i : Nat)
    (h : ∀ p ∈ pairs, p.2 ≠ i) : getI (writeC pairs c4r) i = getI c4r i := by
  induction pairs generalizing c4r with
  | nil => rfl
  | cons p rest ih =>
    unfold writeC at *
    simp only [List.foldl_cons]
    rw [ih _ (fun q hq => h q (by simp [hq]))]
    exact getI_set_ne _ _ (h p (by simp))

theorem writeR_cons (q : Nat × Nat) (rest : List (Nat × Nat)) (r4c : List Int) :
    writeR (q :: rest) r4c = writeR rest (r4c.set q.1 (Int.ofNat q.2)) := rfl

theorem writeC_cons (q : Nat × Nat) (rest : List (Nat × Nat)) (c4r : List Int) :
    writeC (q :: rest) c4r = writeC rest (c4r.set q.2 (Int.ofNat q.1)) := rfl

theorem writeR_hit (pairs : List (Nat × Nat)) (r4c : List Int)
    (hnd : (pairs.map Prod.fst).Nodup) :
    ∀ p ∈ pairs, p.1 < r4c.length → getI (writeR pairs r4c) p.1 = Int.ofNat p.2 := by
  induction pairs generalizing r4c with
  | nil => intro p hp; exact absurd hp (by simp)
  | cons q rest ih =>
    have hnd1 : (q.1 :: List.map Prod.fst rest).Nodup := by simpa using hnd
    intro p hp hlen
    rcases List.mem_cons.mp hp with hp1 | hp1
    · subst hp1
      rw [writeR_cons]
      have hfr : ∀ x ∈ rest, x.1 ≠ p.1 := by
        intro x hx hcon
        exact (List.nodup_cons.mp hnd1).1 (hcon ▸ List.mem_map_of_mem Prod.fst hx)
      rw [writeR_frame rest _ p.1 hfr]
      exact getI_set_self _ _ _ hlen
    · rw [writeR_cons]
      refine ih _ (List.nodup_cons.mp hnd1).2 p hp1 ?_
      rw [List.length_set]
      exact hlen

theorem writeC_hit (pairs : List (Nat × Nat)) (c4r : List Int)
    (hnd : (pairs.map Prod.snd).Nodup) :
    ∀ p ∈ pairs, p.2 < c4r.length → getI (writeC pairs c4r) p.2 = Int.ofNat p.1 := by
  induction pairs generalizing c4r with
  | nil => intro p hp; exact absurd hp (by simp)
  | cons q rest ih =>
    have hnd1 : (q.2 :: List.map Prod.snd rest).Nodup := by simpa using hnd
    intro p hp hlen
    rcases List.mem_cons.mp hp with hp1 | hp1
    · subst hp1
      rw [writeC_cons]
      have hfr : ∀ x ∈ rest, x.2 ≠ p.2 := by
        intro x hx hcon
        exact (List.nodup_cons.mp hnd1).1 (hcon ▸ List.mem_map_of_mem Prod.snd hx)
      rw [writeC_frame rest _ p.2 hfr]
      exact getI_set_self _ _ _ hlen
    · rw [writeC_cons]
      refine ih _ (List.nodup_cons.mp hnd1).2 p hp1 ?_
      rw [List.length_set]
      exact hlen

theorem flipGo_succ (path : List Int) (cur_row fuel : Nat) (r4c c4r : List Int)
    (cx : Nat) :
    flipGo path cur_row (fuel + 1) r4c c4r cx =
      if (getI path cx).toNat = cur_row then
        .ok (r4c.set cx (Int.ofNat (getI path cx).toNat),
          c4r.set (getI path cx).toNat (Int.ofNat cx))
      else
        flipGo path cur_row fuel (r4c.set cx (Int.ofNat (getI path cx).toNat))
          (c4r.set (getI path cx).toNat (Int.ofNat cx))
          (getI c4r (getI path cx).toNat).toNat := rfl

theorem flip_master (C : Nat → Nat → ECost) (nr nc cur_row : Nat) (s : LapState)
    (path : List Int) (spc : List ECost) (SR SC : List Bool) (sink : Nat) (mv : ℤ)
    (ord : List Nat)
    (hpost : SearchPost C nr nc cur_row s path spc SR SC sink mv ord) :
    ∀ n c, c ∈ ord → getI path c ≠ -1 → ord.indexOf c < n →
      ∀ fuel, ord.indexOf c < fuel →
      ∀ c4rX, c4rX.length = nr →
        (∀ c', c' ∈ ord → getI path c' ≠ -1 → ord.indexOf c' ≤ ord.indexOf c →
          (getI path c').toNat ≠ cur_row →
          getI c4rX (getI path c').toNat = getI s.col4row (getI path c').toNat) →
      ∀ r4cX, r4cX.length = nc →
      ∃ pairs : List (Nat × Nat),
        flipGo path cur_row fuel r4cX c4rX c = .ok (writeR pairs r4cX, writeC pairs c4rX) ∧
        ChainOK path s.col4row cur_row c pairs ∧
        (∀ p ∈ pairs, p.1 ∈ ord ∧ getI path p.1 ≠ -1 ∧
          ord.indexOf p.1 ≤ ord.indexOf c) ∧
        (pairs.map Prod.fst).Nodup ∧ (pairs.map Prod.snd).Nodup := by
  intro n
  induction n with
  | zero =>
    intro c _ _ h
    exact absurd h (by omega)
  | succ n ih =>
    intro c hc hpc hrank fuel hfuel c4rX hlenc hagree r4cX hlenr
    obtain ⟨fuel1, rfl⟩ : ∃ f, fuel = f + 1 := ⟨fuel - 1, by omega⟩
    by_cases hicur : (getI path c).toNat = cur_row
    · refine ⟨[(c, cur_row)], ?_, ?_, ?_, by simp, by simp⟩
      · rw [flipGo_succ, if_pos hicur, hicur]
        rfl
      · exact ChainOK.last c hicur
      · intro p hp
        have : p = (c, cur_row) := by simpa using hp
        rw [this]
        exact ⟨hc, hpc, Nat.le_refl _⟩
    · have hcnc : c < nc := hpost.ord_sub c hc
      obtain ⟨hxmem, hxrank0⟩ := hpost.rankP c hcnc hpc hicur
      have hxrank : ord.indexOf (getI s.col4row (getI path c).toNat).toNat <
          ord.indexOf c := hxrank0 hc
      have hpn : getI path (getI s.col4row (getI path c).toNat).toNat ≠ -1 := by
        have h1 := (hpost.sc_le _ hxmem).2
        have h2 := hpost.path_iff _ (hpost.ord_sub _ hxmem)
        intro hcon
        exact h1 (h2.mp hcon)
      have hread : getI c4rX (getI path c).toNat = getI s.col4row (getI path c).toNat :=
        hagree c hc hpc (Nat.le_refl _) hicur
      have hagree1 : ∀ c', c' ∈ ord → getI path c' ≠ -1 →
          ord.indexOf c' ≤ ord.indexOf (getI s.col4row (getI path c).toNat).toNat →
          (getI path c').toNat ≠ cur_row →
          getI (c4rX.set (getI path c).toNat (Int.ofNat c)) (getI path c').toNat =
            getI s.col4row (getI path c').toNat := by
        intro c' h1 h2 h3 h4
        have hne : (getI path c').toNat ≠ (getI path c).toNat := by
          intro hcon
          obtain ⟨_, hxr⟩ := hpost.rankP c' (hpost.ord_sub _ h1) h2 h4
          have hlt := hxr h1
          rw [hcon] at hlt
          omega
        rw [getI_set_ne _ _ (fun hcc => hne hcc.symm)]
        exact hagree c' h1 h2 (by omega) h4
      obtain ⟨rest, hflip1, hchain1, hmem1, hcnd1, hrnd1⟩ :=
        ih (getI s.col4row (getI path c).toNat).toNat hxmem hpn (by omega)
          fuel1 (by omega) (c4rX.set (getI path c).toNat (Int.ofNat c))
          (by rw [List.length_set]; exact hlenc) hagree1
          (r4cX.set c (Int.ofNat (getI path c).toNat)) (by rw [List.length_set]; exact hlenr)
      refine ⟨(c, (getI path c).toNat) :: rest, ?_, ?_, ?_, ?_, ?_⟩
      · rw [flipGo_succ, if_neg hicur, hread, hflip1, writeR_cons, writeC_cons]
      · exact ChainOK.step c (getI path c).toNat rest rfl hicur hchain1
      · intro p hp
        rcases List.mem_cons.mp hp with hp1 | hp1
        · rw [hp1]
          exact ⟨hc, hpc, Nat.le_refl _⟩
        · obtain ⟨m1, m2, m3⟩ := hmem1 p hp1
          exact ⟨m1, m2, by omega⟩
      · simp only [List.map_cons]
        rw [List.nodup_cons]
        refine ⟨?_, hcnd1⟩
        intro hcon
        obtain ⟨p, hp, hp2⟩ := List.mem_map.mp hcon
        obtain ⟨_, _, m3⟩ := hmem1 p hp
        rw [hp2] at m3
        omega
      · simp only [List.map_cons]
        rw [List.nodup_cons]
        refine ⟨?_, hrnd1⟩
        intro hcon
        obtain ⟨q, hq, hq2⟩ := List.mem_map.mp hcon
        have hsucc := chain_succ_col hchain1 q hq (by rw [hq2]; exact hicur)
        rw [hq2] at hsucc
        obtain ⟨i1, rest1, hrest1, _⟩ := chain_head hchain1
        rw [hrest1] at hsucc hcnd1
        simp only [List.map_cons, List.tail_cons] at hsucc
        simp only [List.map_cons] at hcnd1
        exact (List.nodup_cons.mp hcnd1).1 hsucc

theorem chain_pair_row {path c4r0 : List Int} {cur_row : Nat} :
    ∀ {c : Nat} {pairs : List (Nat × Nat)}, ChainOK path c4r0 cur_row c pairs →
      ∀ p ∈ pairs, p.2 = (getI path p.1).toNat := by
  intro c pairs h
  induction h with
  | last c hc =>
    intro p hp
    have : p = (c, cur_row) := by simpa using hp
    rw [this, hc]
  | step c i rest hc hne hr ih =>
    intro p hp
    rcases List.mem_cons.mp hp with hp1 | hp1
    · rw [hp1, hc]
    · exact ih p hp1

theorem chain_cur_mem {path c4r0 : List Int} {cur_row : Nat} :
    ∀ {c : Nat} {pairs : List (Nat × Nat)}, ChainOK path c4r0 cur_row c pairs →
      ∃ p ∈ pairs, p.2 = cur_row := by
  intro c pairs h
  induction h with
  | last c hc => exact ⟨(c, cur_row), by simp, rfl⟩
  | step c i rest hc hne hr ih =>
    obtain ⟨p, hp, hp2⟩ := ih
    exact ⟨p, by simp [hp], hp2⟩

theorem chain_col_source {path c4r0 : List Int} {cur_row : Nat} :
    ∀ {c : Nat} {pairs : List (Nat × Nat)}, ChainOK path c4r0 cur_row c pairs →
      ∀ p ∈ pairs, p.1 = c ∨ ∃ q ∈ pairs, q.2 ≠ cur_row ∧ p.1 = (getI c4r0 q.2).toNat := by
  intro c pairs h
  induction h with
  | last c hc =>
    intro p hp
    have : p = (c, cur_row) := by simpa using hp
    exact Or.inl (by rw [this])
  | step c i rest hc hne hr ih =>
    intro p hp
    rcases List.mem_cons.mp hp with hp1 | hp1
    · exact Or.inl (by rw [hp1])
    · rcases ih p hp1 with h1 | ⟨q, hq, hq1, hq2⟩
      · right
        refine ⟨(c, i), by simp, hne, ?_⟩
        rw [h1]
      · exact Or.inr ⟨q, by simp [hq], hq1, hq2⟩

theorem updateU_length (SR : List Bool) (cur_row : Nat) (mv : ℤ) (spc : List ECost)
    (c4r : List Int) (u : List ℤ) : (updateU SR cur_row mv spc c4r u).length = u.length :=
  length_mapIdxFrom _ _ _

theorem updateV_length (SC : List Bool) (mv : ℤ) (spc : List ECost) (v : List ℤ) :
    (updateV SC mv spc v).length = v.length :=
  length_mapIdxFrom _ _ _

theorem updateU_frame (SR : List Bool) (cur_row : Nat) (mv : ℤ) (spc : List ECost)
    (c4r : List Int) (u : List ℤ) (i : Nat) (h : getB SR i = false) :
    getQ (updateU SR cur_row mv spc c4r u) i = getQ u i := by
  unfold updateU getQ
  rw [getD_mapIdxFrom]
  by_cases hi : i < u.length
  · rw [if_pos hi, Nat.zero_add, h]
    simp
  · rw [if_neg hi]
    rw [List.getD_eq_getElem?_getD, List.getElem?_eq_none (by omega)]
    rfl

theorem updateU_sr (SR : List Bool) (cur_row : Nat) (mv : ℤ) (spc : List ECost)
    (c4r : List Int) (u : List ℤ) (i : Nat) (hi : i < u.length) (h : getB SR i = true) :
    getQ (updateU SR cur_row mv spc c4r u) i =
      if i = cur_row then getQ u i + mv
      else getQ u i + (mv - (getE spc (getI c4r i).toNat).toZ) := by
  unfold updateU getQ
  rw [getD_mapIdxFrom, if_pos hi, Nat.zero_add, h]
  simp

theorem updateV_frame (SC : List Bool) (mv : ℤ) (spc : List ECost) (v : List ℤ)
    (j : Nat) (h : getB SC j = false) :
    getQ (updateV SC mv spc v) j = getQ v j := by
  unfold updateV getQ
  rw [getD_mapIdxFrom]
  by_cases hj : j < v.length
  · rw [if_pos hj, Nat.zero_add, h]
    simp
  · rw [if_neg hj]
    rw [List.getD_eq_getElem?_getD, List.getElem?_eq_none (by omega)]
    rfl

theorem updateV_sc (SC : List Bool) (mv : ℤ) (spc : List ECost) (v : List ℤ)
    (j : Nat) (hj : j < v.length) (h : getB SC j = true) :
    getQ (updateV SC mv spc v) j = getQ v j - (mv - (getE spc j).toZ) := by
  unfold updateV getQ
  rw [getD_mapIdxFrom, if_pos hj, Nat.zero_add, h]
  rfl

theorem augment_eq (C : Nat → Nat → ECost) (nr nc cur_row : Nat) (s : LapState) :
    augment C nr nc cur_row s =
      (match searchLoop C s.row4col s.u s.v (nc + 1)
          ⟨List.range nc, List.replicate nr false, List.replicate nc false,
            List.replicate nc (-1), List.replicate nc ECost.inf, cur_row, 0⟩ 0 with
      | .error e => .error e
      | .ok R =>
        match flipGo R.path cur_row (nc + 1) s.row4col s.col4row R.sink with
        | .error e => .error e
        | .ok p => .ok ⟨p.1, p.2, updateU R.SR cur_row R.minVal R.spc s.col4row s.u,
            updateV R.SC R.minVal R.spc s.v⟩) := rfl

/-- Complementary slackness: every assigned edge is tight. -/
@[reducible] def Tight (C : Nat → Nat → ECost) (nr : Nat) (s : LapState) : Prop :=
  ∀ i < nr, getI s.col4row i ≠ -1 →
    C i (getI s.col4row i).toNat =
      ECost.fin (getQ s.u i + getQ s.v (getI s.col4row i).toNat)

/-- Column duals never become positive. -/
@[reducible] def VNonpos (nc : Nat) (s : LapState) : Prop := ∀ j < nc, getQ s.v j ≤ 0

/-- Unassigned columns keep their initial zero dual. -/
@[reducible] def VZeroUnassigned (nc : Nat) (s : LapState) : Prop :=
  ∀ j < nc, getI s.row4col j = -1 → getQ s.v j = 0

theorem ECost.feas_from_relax {x : ECost} {q d a b m0 : ℤ}
    (h : ECost.fin q ≤ ((ECost.addL d x).subR a).subR b) :
    ECost.fin ((a + (m0 - d)) + (b - (m0 - q))) ≤ x := by
  cases x with
  | inf => exact ECost.le_inf _
  | fin c =>
    have hc : q ≤ d + c - a - b := h
    show (a + (m0 - d)) + (b - (m0 - q)) ≤ c
    linarith

theorem ECost.feas_from_relax2 {x : ECost} {d a b m0 : ℤ}
    (h : ECost.fin m0 ≤ ((ECost.addL d x).subR a).subR b) :
    ECost.fin ((a + (m0 - d)) + b) ≤ x := by
  cases x with
  | inf => exact ECost.le_inf _
  | fin c =>
    have hc : m0 ≤ d + c - a - b := h
    show (a + (m0 - d)) + b ≤ c
    linarith

theorem ECost.tight_from_relax {x : ECost} {q d a b m0 : ℤ}
    (h : ECost.fin q = ((ECost.addL d x).subR a).subR b) :
    x = ECost.fin ((a + (m0 - d)) + (b - (m0 - q))) := by
  cases x with
  | inf => exact absurd h (fun hh => ECost.noConfusion hh)
  | fin c =>
    have hc : q = d + c - a - b := by
      have := h
      injection this with hq
    congr 1
    linarith

theorem nodup_length_le (l : List Nat) (n : Nat) (hnd : l.Nodup) (h : ∀ x ∈ l, x < n) :
    l.length ≤ n := by
  have h1 : l.toFinset.card = l.length := List.toFinset_card_of_nodup hnd
  have h2 : l.toFinset ⊆ Finset.range n := by
    intro x hx
    rw [Finset.mem_range]
    exact h x (List.mem_toFinset.mp hx)
  have := Finset.card_le_card h2
  rw [h1, Finset.card_range] at this
  exact this

theorem augment_master (C : Nat → Nat → ECost) (nr nc cur_row : Nat) (s s1 : LapState)
    (hok : StateOK C nr nc s) (hcur : cur_row < nr)
    (hfree : getI s.col4row cur_row = -1)
    (htight : Tight C nr s)
    (hA : augment C nr nc cur_row s = .ok s1) :
    StateOK C nr nc s1 ∧ Tight C nr s1 ∧
    (VNonpos nc s → VNonpos nc s1) ∧
    (VZeroUnassigned nc s → VZeroUnassigned nc s1) ∧
    (∀ i < nr, (getI s1.col4row i ≠ -1 ↔ (getI s.col4row i ≠ -1 ∨ i = cur_row))) ∧
    getI s1.col4row cur_row ≠ -1 := by
  rw [augment_eq] at hA
  rcases hS : searchLoop C s.row4col s.u s.v (nc + 1)
      ⟨List.range nc, List.replicate nr false, List.replicate nc false,
        List.replicate nc (-1), List.replicate nc ECost.inf, cur_row, 0⟩ 0 with e | R
  · rw [hS] at hA
    exact absurd hA (by simp)
  rw [hS] at hA
  simp only [] at hA
  obtain ⟨ord, hpost⟩ := searchLoop_master C nr nc cur_row s hok hcur hfree
    (nc + 1) _ [] 0 R (searchInv_init C nr nc cur_row s hcur) hS
  rcases hF : flipGo R.path cur_row (nc + 1) s.row4col s.col4row R.sink with e | pq
  · rw [hF] at hA
    exact absurd hA (by simp)
  rw [hF] at hA
  simp only [] at hA
  have hs1 : s1 = ⟨pq.1, pq.2,
      updateU R.SR cur_row R.minVal R.spc s.col4row s.u,
      updateV R.SC R.minVal R.spc s.v⟩ := by
    injection hA with h1
    exact h1.symm
  have hsinkord : R.sink ∈ ord := (hpost.sc_ord R.sink).mp hpost.sink_sc
  have hsinkpath : getI R.path R.sink ≠ -1 := by
    intro hcon
    have := (hpost.path_iff R.sink hpost.sink_lt).mp hcon
    rw [hpost.sink_spc] at this
    exact ECost.noConfusion this
  have hordlen : ord.length ≤ nc := nodup_length_le ord nc hpost.ord_nd hpost.ord_sub
  have hranklt : ord.indexOf R.sink < nc := by
    have := indexOf_lt_length_of_mem hsinkord
    omega
  obtain ⟨pairs, hflip, hchain, hmem, hcnd, hrnd⟩ :=
    flip_master C nr nc cur_row s R.path R.spc R.SR R.SC R.sink R.minVal ord hpost
      (ord.indexOf R.sink + 1) R.sink hsinkord hsinkpath (by omega)
      (nc + 1) (by omega) s.col4row hok.len_c4r
      (by intro c' _ _ _ _; rfl) s.row4col hok.len_r4c
  have hpq : pq = (writeR pairs s.row4col, writeC pairs s.col4row) := by
    rw [hflip] at hF
    injection hF with h1
    exact h1.symm
  rw [hpq] at hs1
  subst hs1
  have hpair : ∀ p ∈ pairs, p.1 ∈ ord ∧ p.1 < nc ∧ getI R.path p.1 ≠ -1 ∧
      p.2 = (getI R.path p.1).toNat ∧ p.2 < nr ∧ getB R.SR p.2 = true ∧
      getB R.SC p.1 = true ∧ getE R.spc p.1 ≠ ECost.inf := by
    intro p hp
    obtain ⟨m1, m2, _⟩ := hmem p hp
    have hlt : p.1 < nc := hpost.ord_sub _ m1
    have hrow := chain_pair_row hchain p hp
    obtain ⟨e1, e2, e3, e4⟩ := hpost.path_eq p.1 hlt m2
    exact ⟨m1, hlt, m2, hrow, by rw [hrow]; exact e2, by rw [hrow]; exact e3,
      (hpost.sc_ord p.1).mpr m1, fun hcon => m2 ((hpost.path_iff p.1 hlt).mpr hcon)⟩
  have hc4r'_hit : ∀ p ∈ pairs, getI (writeC pairs s.col4row) p.2 = Int.ofNat p.1 := by
    intro p hp
    refine writeC_hit pairs s.col4row hrnd p hp ?_
    rw [hok.len_c4r]
    exact (hpair p hp).2.2.2.2.1
  have hr4c'_hit : ∀ p ∈ pairs, getI (writeR pairs s.row4col) p.1 = Int.ofNat p.2 := by
    intro p hp
    refine writeR_hit pairs s.row4col hcnd p hp ?_
    rw [hok.len_r4c]
    exact (hpair p hp).2.1
  have hSRrow : ∀ i, i < nr → getB R.SR i = true → i ≠ cur_row →
      getI s.col4row i ≠ -1 ∧ (getI s.col4row i).toNat ∈ ord ∧
      getI s.row4col (getI s.col4row i).toNat = (i : Int) := by
    intro i hi hsr hne
    rcases hpost.sr_src i hsr with h1 | ⟨j, hj, hj2⟩
    · exact absurd h1 hne
    · have hjnc : j < nc := hpost.ord_sub j hj
      have hrne : getI s.row4col j ≠ -1 := by
        rw [hj2]
        omega
      have hinj := hok.inj2 j hjnc hrne
      rw [hj2] at hinj
      have htn : ((i : Int)).toNat = i := by omega
      rw [htn] at hinj
      have htj : ((j : Int)).toNat = j := by omega
      refine ⟨by rw [hinj]; omega, by rw [hinj, htj]; exact hj, by rw [hinj, htj, hj2]⟩
  have hrow_assigned : ∀ p ∈ pairs, p.2 ≠ cur_row →
      getI s.col4row p.2 ≠ -1 ∧ (getI s.col4row p.2).toNat ∈ ord ∧
      getI s.row4col (getI s.col4row p.2).toNat = (p.2 : Int) := by
    intro p hp hne
    exact hSRrow p.2 (hpair p hp).2.2.2.2.1 (hpair p hp).2.2.2.2.2.1 hne
  have hcol_orig : ∀ p ∈ pairs, p.1 ≠ R.sink → ∃ q ∈ pairs, q.2 ≠ cur_row ∧
      p.1 = (getI s.col4row q.2).toNat ∧ getI s.row4col p.1 = (q.2 : Int) := by
    intro p hp hne
    rcases chain_col_source hchain p hp with h | ⟨q, hq, hq1, hq2⟩
    · exact absurd h hne
    · refine ⟨q, hq, hq1, hq2, ?_⟩
      obtain ⟨ha1, _, ha3⟩ := hrow_assigned q hq hq1
      rw [hq2]
      exact ha3
  have hrowmem_dec : ∀ i : Nat, (∃ p ∈ pairs, p.2 = i) ∨ (∀ p ∈ pairs, p.2 ≠ i) := by
    intro i
    by_cases h : ∃ p ∈ pairs, p.2 = i
    · exact Or.inl h
    · right
      intro p hp hcon
      exact h ⟨p, hp, hcon⟩
  have hcolmem_dec : ∀ c : Nat, (∃ p ∈ pairs, p.1 = c) ∨ (∀ p ∈ pairs, p.1 ≠ c) := by
    intro c
    by_cases h : ∃ p ∈ pairs, p.1 = c
    · exact Or.inl h
    · right
      intro p hp hcon
      exact h ⟨p, hp, hcon⟩
  have hnotrow_notcol : ∀ i, i < nr → (∀ p ∈ pairs, p.2 ≠ i) → getI s.col4row i ≠ -1 →
      (∀ p ∈ pairs, p.1 ≠ (getI s.col4row i).toNat) := by
    intro i hi hnr hne p hp hcon
    by_cases hps : p.1 = R.sink
    · have h1 := hok.inj1 i hi hne
      rw [← hcon, hps, hpost.sink_free] at h1
      omega
    · obtain ⟨q, hq, hq1, hq2, hq3⟩ := hcol_orig p hp hps
      have h1 := hok.inj1 i hi hne
      rw [← hcon] at h1
      rw [hq3] at h1
      have : q.2 = i := by omega
      exact hnr q hq this
  have hnotcol_notrow : ∀ j, j < nc → (∀ p ∈ pairs, p.1 ≠ j) → getI s.row4col j ≠ -1 →
      (∀ p ∈ pairs, p.2 ≠ (getI s.row4col j).toNat) := by
    intro j hj hnc hne p hp hcon
    by_cases hpc : p.2 = cur_row
    · rw [hpc] at hcon
      have h1 := hok.inj2 j hj hne
      rw [← hcon] at h1
      rw [hfree] at h1
      omega
    · have h2 := chain_succ_col hchain p hp hpc
      have h3 := hok.inj2 j hj hne
      rw [← hcon] at h3
      have : (getI s.col4row p.2).toNat = j := by
        have hr := hok.r4c_range j hj
        rcases hr with hr | hr
        · exact absurd hr hne
        · rw [h3]
          omega
      rw [this] at h2
      have := List.mem_of_mem_tail h2
      obtain ⟨q, hq, hqeq⟩ := List.mem_map.mp this
      exact hnc q hq hqeq
  have hu1sr : ∀ i, i < nr → getB R.SR i = true →
      getQ (updateU R.SR cur_row R.minVal R.spc s.col4row s.u) i =
        getQ s.u i + (R.minVal - DqS s.col4row cur_row R.spc i) := by
    intro i hi hsr
    rw [updateU_sr _ _ _ _ _ _ i (by rw [hok.len_u]; exact hi) hsr]
    unfold DqS
    by_cases hic : i = cur_row
    · rw [if_pos hic, if_pos hic]
      ring
    · rw [if_neg hic, if_neg hic]
  have hv1sc : ∀ j, j < nc → getB R.SC j = true →
      getQ (updateV R.SC R.minVal R.spc s.v) j =
        getQ s.v j - (R.minVal - (getE R.spc j).toZ) := by
    intro j hj hsc
    exact updateV_sc _ _ _ _ j (by rw [hok.len_v]; exact hj) hsc
  have hrows_iff : ∀ i < nr, (getI (writeC pairs s.col4row) i ≠ -1 ↔
      (getI s.col4row i ≠ -1 ∨ i = cur_row)) := by
    intro i hi
    rcases hrowmem_dec i with ⟨p, hp, hpi⟩ | hno
    · rw [← hpi, hc4r'_hit p hp]
      constructor
      · intro _
        by_cases hic : p.2 = cur_row
        · exact Or.inr hic
        · exact Or.inl (hrow_assigned p hp hic).1
      · intro _
        exact ofNat_ne_negone _
    · rw [writeC_frame pairs s.col4row i hno]
      constructor
      · exact Or.inl
      · intro h
        rcases h with h | h
        · exact h
        · exfalso
          obtain ⟨p, hp, hp2⟩ := chain_cur_mem hchain
          exact hno p hp (by rw [hp2, h])
  have hsc_rat : ∀ j, getB R.SC j = true →
      getE R.spc j = ECost.fin (getE R.spc j).toZ ∧ (getE R.spc j).toZ ≤ R.minVal := by
    intro j h
    have hjo := (hpost.sc_ord j).mp h
    obtain ⟨h1, h2⟩ := hpost.sc_le j hjo
    have hfin := ECost.eq_fin_of_ne_inf h2
    refine ⟨hfin, ?_⟩
    rw [hfin] at h1
    exact ECost.fin_le_fin.mp h1
  have hsc_sr : ∀ j, getB R.SC j = true → getI s.row4col j ≠ -1 →
      getB R.SR (getI s.row4col j).toNat = true := by
    intro j hsc hne
    have hjo := (hpost.sc_ord j).mp hsc
    by_cases hjs : j = R.sink
    · rw [hjs, hpost.sink_free] at hne
      exact absurd rfl hne
    · exact (hpost.sc_row j hjo hjs).2
  have hnsr_nsc : ∀ i < nr, getB R.SR i = false → getI s.col4row i ≠ -1 →
      getB R.SC (getI s.col4row i).toNat = false := by
    intro i hi hsr hne
    by_cases h : getB R.SC (getI s.col4row i).toNat = true
    · exfalso
      have hr4c := hok.inj1 i hi hne
      have hsr2 := hsc_sr _ h (by rw [hr4c]; omega)
      rw [hr4c] at hsr2
      have hti : ((i : Int)).toNat = i := by omega
      rw [hti] at hsr2
      rw [hsr2] at hsr
      exact Bool.noConfusion hsr
    · simpa using h
  have hfeas1 : ∀ i < nr, getI (writeC pairs s.col4row) i ≠ -1 → ∀ j < nc,
      ECost.fin (getQ (updateU R.SR cur_row R.minVal R.spc s.col4row s.u) i +
        getQ (updateV R.SC R.minVal R.spc s.v) j) ≤ C i j := by
    intro i hi hasg j hj
    by_cases hsri : getB R.SR i = true
    · have hu := hu1sr i hi hsri
      by_cases hscj : getB R.SC j = true
      · have hv := hv1sc j hj hscj
        have hrel := hpost.relaxP i hsri j hj
        obtain ⟨hfin, _⟩ := hsc_rat j hscj
        rw [hfin] at hrel
        unfold relax at hrel
        rw [hu, hv]
        exact ECost.feas_from_relax hrel
      · have hv := updateV_frame R.SC R.minVal R.spc s.v j (by simpa using hscj)
        have hge := hpost.nonsc_ge j hj (by simpa using hscj)
        have hrel := hpost.relaxP i hsri j hj
        have h2 := ECost.eleTrans hge hrel
        unfold relax at h2
        rw [hu, hv]
        exact ECost.feas_from_relax2 h2
    · have hsri' : getB R.SR i = false := by simpa using hsri
      have hu := updateU_frame R.SR cur_row R.minVal R.spc s.col4row s.u i hsri'
      have hine : i ≠ cur_row := by
        intro hcon
        rw [hcon] at hsri'
        rw [hpost.sr_cur] at hsri'
        exact Bool.noConfusion hsri'
      have hold : getI s.col4row i ≠ -1 := by
        rcases (hrows_iff i hi).mp hasg with h | h
        · exact h
        · exact absurd h hine
      have hfe := hok.feas i hi hold j hj
      by_cases hscj : getB R.SC j = true
      · have hv := hv1sc j hj hscj
        obtain ⟨_, hle⟩ := hsc_rat j hscj
        rw [hu, hv]
        refine ECost.eleTrans ?_ hfe
        rw [ECost.fin_le_fin]
        linarith
      · have hv := updateV_frame R.SC R.minVal R.spc s.v j (by simpa using hscj)
        rw [hu, hv]
        exact hfe
  have htight1 : ∀ i < nr, getI (writeC pairs s.col4row) i ≠ -1 →
      C i (getI (writeC pairs s.col4row) i).toNat =
        ECost.fin (getQ (updateU R.SR cur_row R.minVal R.spc s.col4row s.u) i +
          getQ (updateV R.SC R.minVal R.spc s.v)
            (getI (writeC pairs s.col4row) i).toNat) := by
    intro i hi hasg
    rcases hrowmem_dec i with ⟨p, hp, hpi⟩ | hno
    · subst hpi
      have hcc := hc4r'_hit p hp
      rw [hcc]
      have htn : (Int.ofNat p.1).toNat = p.1 := rfl
      rw [htn]
      obtain ⟨hpo, hlt, hpath, hptn, hplt, hpsr, hpsc, hpninf⟩ := hpair p hp
      obtain ⟨e1, e2, e3, e4⟩ := hpost.path_eq p.1 hlt hpath
      rw [← hptn] at e4
      have hfin := ECost.eq_fin_of_ne_inf hpninf
      rw [hfin] at e4
      unfold relax at e4
      rw [hu1sr p.2 hplt hpsr, hv1sc p.1 hlt hpsc]
      exact ECost.tight_from_relax e4
    · have hcc := writeC_frame pairs s.col4row i hno
      rw [hcc] at hasg ⊢
      have hjnc : (getI s.col4row i).toNat < nc := by
        rcases hok.c4r_range i hi with h1 | h1
        · exact absurd h1 hasg
        · omega
      have hT := htight i hi hasg
      by_cases hsri : getB R.SR i = true
      · have hine : i ≠ cur_row := by
          intro hcon
          rw [hcon] at hasg
          exact hasg hfree
        obtain ⟨_, hmo, _⟩ := hSRrow i hi hsri hine
        have hscj : getB R.SC (getI s.col4row i).toNat = true := (hpost.sc_ord _).mpr hmo
        rw [hu1sr i hi hsri, hv1sc _ hjnc hscj]
        have hd : DqS s.col4row cur_row R.spc i =
            (getE R.spc (getI s.col4row i).toNat).toZ := by
          unfold DqS
          rw [if_neg hine]
        rw [hd, hT]
        exact congrArg ECost.fin (by ring)
      · have hsri' : getB R.SR i = false := by simpa using hsri
        have hscj : getB R.SC (getI s.col4row i).toNat = false := hnsr_nsc i hi hsri' hasg
        rw [updateU_frame R.SR cur_row R.minVal R.spc s.col4row s.u i hsri',
          updateV_frame R.SC R.minVal R.spc s.v _ hscj]
        exact hT
  have hvnp1 : VNonpos nc s → ∀ j < nc, getQ (updateV R.SC R.minVal R.spc s.v) j ≤ 0 := by
    intro hvnp j hj
    by_cases hscj : getB R.SC j = true
    · rw [hv1sc j hj hscj]
      obtain ⟨_, hle⟩ := hsc_rat j hscj
      have := hvnp j hj
      linarith
    · rw [updateV_frame R.SC R.minVal R.spc s.v j (by simpa using hscj)]
      exact hvnp j hj
  have hvz1 : VZeroUnassigned nc s → ∀ j < nc, getI (writeR pairs s.row4col) j = -1 →
      getQ (updateV R.SC R.minVal R.spc s.v) j = 0 := by
    intro hvz j hj hun
    have hnochain : ∀ p ∈ pairs, p.1 ≠ j := by
      intro p hp hcon
      rw [← hcon] at hun
      rw [hr4c'_hit p hp] at hun
      exact ofNat_ne_negone _ hun
    have hold : getI s.row4col j = -1 := by
      rw [← writeR_frame pairs s.row4col j hnochain]
      exact hun
    have hscj : getB R.SC j = false := by
      by_cases h : getB R.SC j = true
      · exfalso
        have hjo := (hpost.sc_ord j).mp h
        by_cases hjs : j = R.sink
        · obtain ⟨i0, rest, hrest, _⟩ := chain_head hchain
          exact hnochain (R.sink, i0) (by rw [hrest]; simp) hjs.symm
        · exact (hpost.sc_row j hjo hjs).1 hold
      · simpa using h
    rw [updateV_frame R.SC R.minVal R.spc s.v j hscj]
    exact hvz j hj hold
  have hr4c_rng : ∀ j < nc, getI (writeR pairs s.row4col) j = -1 ∨
      (0 ≤ getI (writeR pairs s.row4col) j ∧ getI (writeR pairs s.row4col) j < nr) := by
    intro j hj
    rcases hcolmem_dec j with ⟨p, hp, hpj⟩ | hno
    · right
      rw [← hpj, hr4c'_hit p hp]
      have hplt := (hpair p hp).2.2.2.2.1
      rw [Int.ofNat_eq_natCast]
      exact ⟨by omega, by omega⟩
    · rw [writeR_frame pairs s.row4col j hno]
      exact hok.r4c_range j hj
  have hc4r_rng : ∀ i < nr, getI (writeC pairs s.col4row) i = -1 ∨
      (0 ≤ getI (writeC pairs s.col4row) i ∧ getI (writeC pairs s.col4row) i < nc) := by
    intro i hi
    rcases hrowmem_dec i with ⟨p, hp, hpi⟩ | hno
    · right
      rw [← hpi, hc4r'_hit p hp]
      have hplt := (hpair p hp).2.1
      rw [Int.ofNat_eq_natCast]
      exact ⟨by omega, by omega⟩
    · rw [writeC_frame pairs s.col4row i hno]
      exact hok.c4r_range i hi
  have hinj1 : ∀ i < nr, getI (writeC pairs s.col4row) i ≠ -1 →
      getI (writeR pairs s.row4col) (getI (writeC pairs s.col4row) i).toNat = i := by
    intro i hi hasg
    rcases hrowmem_dec i with ⟨p, hp, hpi⟩ | hno
    · rw [← hpi, hc4r'_hit p hp]
      have htn : (Int.ofNat p.1).toNat = p.1 := rfl
      rw [htn, hr4c'_hit p hp]
      exact Int.ofNat_eq_natCast _
    · have hcc := writeC_frame pairs s.col4row i hno
      rw [hcc] at hasg ⊢
      have hin := hok.inj1 i hi hasg
      have hjn : ∀ p ∈ pairs, p.1 ≠ (getI s.col4row i).toNat := hnotrow_notcol i hi hno hasg
      rw [writeR_frame pairs s.row4col _ hjn]
      exact hin
  have hinj2 : ∀ j < nc, getI (writeR pairs s.row4col) j ≠ -1 →
      getI (writeC pairs s.col4row) (getI (writeR pairs s.row4col) j).toNat = j := by
    intro j hj hasg
    rcases hcolmem_dec j with ⟨p, hp, hpj⟩ | hno
    · rw [← hpj, hr4c'_hit p hp]
      have htn : (Int.ofNat p.2).toNat = p.2 := rfl
      rw [htn, hc4r'_hit p hp]
      exact Int.ofNat_eq_natCast _
    · have hcc := writeR_frame pairs s.row4col j hno
      rw [hcc] at hasg ⊢
      have hin := hok.inj2 j hj hasg
      have hineq : ∀ p ∈ pairs, p.2 ≠ (getI s.row4col j).toNat :=
        hnotcol_notrow j hj hno hasg
      rw [writeC_frame pairs s.col4row _ hineq]
      exact hin
  have hcur1 : getI (writeC pairs s.col4row) cur_row ≠ -1 := by
    obtain ⟨p, hp, hp2⟩ := chain_cur_mem hchain
    rw [← hp2, hc4r'_hit p hp]
    exact ofNat_ne_negone _
  refine ⟨⟨?_, ?_, ?_, ?_, hr4c_rng, hc4r_rng, hinj1, hinj2, hfeas1⟩,
    htight1, hvnp1, hvz1, hrows_iff, hcur1⟩
  · exact (writeR_length pairs s.row4col).trans hok.len_r4c
  · exact (writeC_length pairs s.col4row).trans hok.len_c4r
  · exact (updateU_length _ _ _ _ _ _).trans hok.len_u
  · exact (updateV_length _ _ _ _).trans hok.len_v

theorem solveGo_succ (C : Nat → Nat → ECost) (nr nc count r : Nat) (s : LapState) :
    solveGo C nr nc (count + 1) r s =
      (match augment C nr nc r s with
      | .error e => .error e
      | .ok s1 => solveGo C nr nc count (r + 1) s1) := rfl

theorem solveTuple_eq (C : Nat → Nat → ECost) (nr nc : Nat) :
    solveTuple C nr nc =
      (solveGo C nr nc nr 0
        ⟨List.replicate nc (-1), List.replicate nr (-1),
          List.replicate nr 0, List.replicate nc 0⟩).map
        (fun s => (s.row4col, s.col4row, s.u, s.v)) := rfl

theorem getI_replicate (n i : Nat) :
    getI (List.replicate n (-1) : List Int) i = -1 := by
  unfold getI
  rw [getD_replicate]
  split <;> rfl

theorem getQ_replicate (n i : Nat) : getQ (List.replicate n (0 : ℤ)) i = 0 := by
  unfold getQ
  rw [getD_replicate]
  split <;> rfl

/-- Invariant of the row loop of `_solve`: after handling rows
`0, ..., r-1` the state is well formed, complementary-slack, has
nonpositive column duals vanishing on unassigned columns, and exactly
the first `r` rows are assigned. -/
structure SolveInv (C : Nat → Nat → ECost) (nr nc r : Nat) (s : LapState) : Prop where
  ok : StateOK C nr nc s
  tight : Tight C nr s
  vnp : VNonpos nc s
  vz : VZeroUnassigned nc s
  rows : ∀ i < nr, (getI s.col4row i ≠ -1 ↔ i < r)

theorem solveInv_init (C : Nat → Nat → ECost) (nr nc : Nat) :
    SolveInv C nr nc 0
      ⟨List.replicate nc (-1), List.replicate nr (-1),
        List.replicate nr 0, List.replicate nc 0⟩ := by
  refine ⟨⟨by simp, by simp, by simp, by simp, ?_, ?_, ?_, ?_, ?_⟩, ?_, ?_, ?_, ?_⟩
  · intro j hj
    exact Or.inl (getI_replicate nc j)
  · intro i hi
    exact Or.inl (getI_replicate nr i)
  · intro i hi h
    exact absurd (getI_replicate nr i) h
  · intro j hj h
    exact absurd (getI_replicate nc j) h
  · intro i hi h
    exact absurd (getI_replicate nr i) h
  · intro i hi h
    exact absurd (getI_replicate nr i) h
  · intro j hj
    exact le_of_eq (getQ_replicate nc j)
  · intro j hj _
    exact getQ_replicate nc j
  · intro i hi
    constructor
    · intro h
      exact absurd (getI_replicate nr i) h
    · intro h
      exact absurd h (Nat.not_lt_zero i)

theorem solveGo_master (C : Nat → Nat → ECost) (nr nc : Nat) :
    ∀ count r s s1, SolveInv C nr nc r s → r + count = nr →
      solveGo C nr nc count r s = .ok s1 → SolveInv C nr nc nr s1 := by
  intro count
  induction count with
  | zero =>
    intro r s s1 hinv hr h
    have hs1 : s1 = s := by
      have h2 : (Except.ok s : Except LapError LapState) = .ok s1 := h
      injection h2 with h3
      exact h3.symm
    subst hs1
    have hrn : r = nr := by omega
    subst hrn
    exact hinv
  | succ n ih =>
    intro r s s1 hinv hr h
    rw [solveGo_succ] at h
    rcases hA : augment C nr nc r s with e | s2
    · rw [hA] at h
      exact absurd h (by simp)
    rw [hA] at h
    simp only [] at h
    have hcur : r < nr := by omega
    have hfree : getI s.col4row r = -1 := by
      by_cases hf : getI s.col4row r = -1
      · exact hf
      · exact absurd ((hinv.rows r hcur).mp hf) (by omega)
    obtain ⟨ok1, t1, v1, vz1, riff, hc1⟩ :=
      augment_master C nr nc r s s2 hinv.ok hcur hfree hinv.tight hA
    refine ih (r + 1) s2 s1 ⟨ok1, t1, v1 hinv.vnp, vz1 hinv.vz, ?_⟩ (by omega) h
    intro i hi
    rw [riff i hi]
    constructor
    · intro hor
      rcases hor with h1 | h1
      · have := (hinv.rows i hi).mp h1
        omega
      · omega
    · intro h1
      by_cases hir : i = r
      · exact Or.inr hir
      · left
        rw [hinv.rows i hi]
        omega

/-- Everything `_solve` guarantees on success: array lengths, a total
injective assignment of the rows with mutually-inverse inverse map,
dual feasibility on all edges, tightness of assigned edges,
nonpositive column duals, and zero duals on unassigned columns. -/
theorem solveTuple_master (C : Nat → Nat → ECost) (nr nc : Nat)
    (r4c c4r : List Int) (u v : List ℤ)
    (h : solveTuple C nr nc = .ok (r4c, c4r, u, v)) :
    r4c.length = nc ∧ c4r.length = nr ∧ u.length = nr ∧ v.length = nc ∧
    (∀ i < nr, 0 ≤ getI c4r i ∧ getI c4r i < nc) ∧
    (∀ j < nc, getI r4c j = -1 ∨ (0 ≤ getI r4c j ∧ getI r4c j < nr)) ∧
    (∀ i1 < nr, ∀ i2 < nr, getI c4r i1 = getI c4r i2 → i1 = i2) ∧
    (∀ j < nc, getI r4c j ≠ -1 → getI c4r (getI r4c j).toNat = j) ∧
    (∀ i < nr, getI r4c (getI c4r i).toNat = i) ∧
    (∀ i < nr, ∀ j < nc, ECost.fin (getQ u i + getQ v j) ≤ C i j) ∧
    (∀ i < nr, C i (getI c4r i).toNat =
      ECost.fin (getQ u i + getQ v (getI c4r i).toNat)) ∧
    (∀ j < nc, getQ v j ≤ 0) ∧
    (∀ j < nc, getI r4c j = -1 → getQ v j = 0) := by
  rw [solveTuple_eq] at h
  rcases hG : solveGo C nr nc nr 0
      ⟨List.replicate nc (-1), List.replicate nr (-1),
        List.replicate nr 0, List.replicate nc 0⟩ with e | s1
  · rw [hG] at h
    exact absurd h (by simp [Except.map])
  rw [hG] at h
  simp only [Except.map] at h
  injection h with h1
  injection h1 with ha h1
  injection h1 with hb h1
  injection h1 with hc hd
  subst ha
  subst hb
  subst hc
  subst hd
  have hsolve := solveGo_master C nr nc nr 0 _ s1 (solveInv_init C nr nc) (by omega) hG
  have hasg : ∀ i < nr, getI s1.col4row i ≠ -1 := fun i hi => (hsolve.rows i hi).mpr hi
  have hrng : ∀ i < nr, 0 ≤ getI s1.col4row i ∧ getI s1.col4row i < nc := by
    intro i hi
    rcases hsolve.ok.c4r_range i hi with h1 | h1
    · exact absurd h1 (hasg i hi)
    · exact h1
  refine ⟨hsolve.ok.len_r4c, hsolve.ok.len_c4r, hsolve.ok.len_u, hsolve.ok.len_v,
    hrng, hsolve.ok.r4c_range, ?_, ?_, ?_, ?_, ?_, hsolve.vnp, hsolve.vz⟩
  · intro i1 hi1 i2 hi2 heq
    have e1 := hsolve.ok.inj1 i1 hi1 (hasg i1 hi1)
    have e3 := hsolve.ok.inj1 i2 hi2 (hasg i2 hi2)
    have htn : (getI s1.col4row i1).toNat = (getI s1.col4row i2).toNat := by
      rw [heq]
    rw [htn, e3] at e1
    omega
  · intro j hj hne
    exact hsolve.ok.inj2 j hj hne
  · intro i hi
    exact hsolve.ok.inj1 i hi (hasg i hi)
  · intro i hi j hj
    exact hsolve.ok.feas i hi (hasg i hi) j hj
  · intro i hi
    exact hsolve.tight i hi (hasg i hi)

/-- Total cost of the first `n` summands, `inf` absorbing. -/
def sumCost (f : Nat → ECost) : Nat → ECost
  | 0 => ECost.fin 0
  | n + 1 => ECost.add (sumCost f n) (f n)

/-- Total cost of an assignment `g` of the rows `0, ..., nr-1`. -/
def assignCost (C : Nat → Nat → ECost) (g : Nat → Nat) (nr : Nat) : ECost :=
  sumCost (fun i => C i (g i)) nr

theorem sumCost_zero (f : Nat → ECost) : sumCost f 0 = ECost.fin 0 := rfl

theorem sumCost_succ (f : Nat → ECost) (n : Nat) :
    sumCost f (n + 1) = ECost.add (sumCost f n) (f n) := rfl

theorem sumCost_fin (f : Nat → ECost) (g : Nat → ℤ) :
    ∀ n, (∀ i < n, f i = ECost.fin (g i)) →
      sumCost f n = ECost.fin (∑ i ∈ Finset.range n, g i) := by
  intro n
  induction n with
  | zero =>
    intro _
    rw [sumCost_zero, Finset.sum_range_zero]
  | succ m ih =>
    intro h
    rw [sumCost_succ, Finset.sum_range_succ, ih (fun i hi => h i (by omega)),
      h m (by omega)]
    rfl

theorem sumCost_mono (f : Nat → ECost) (g : Nat → ℤ) :
    ∀ n, (∀ i < n, ECost.fin (g i) ≤ f i) →
      ECost.fin (∑ i ∈ Finset.range n, g i) ≤ sumCost f n := by
  intro n
  induction n with
  | zero =>
    intro _
    rw [sumCost_zero, Finset.sum_range_zero]
    exact ECost.eleRefl _
  | succ m ih =>
    intro h
    rw [sumCost_succ, Finset.sum_range_succ]
    have h1 := ih (fun i hi => h i (by omega))
    have h2 := h m (by omega)
    cases hs : sumCost f m with
    | inf =>
      cases hf : f m with
      | inf => exact ECost.le_inf _
      | fin b => exact ECost.le_inf _
    | fin a =>
      cases hf : f m with
      | inf => exact ECost.le_inf _
      | fin b =>
        rw [hs] at h1
        rw [hf] at h2
        have ha : (∑ i ∈ Finset.range m, g i) ≤ a := ECost.fin_le_fin.mp h1
        have hb : g m ≤ b := ECost.fin_le_fin.mp h2
        show ECost.fin (∑ i ∈ Finset.range m, g i + g m) ≤ ECost.fin (a + b)
        rw [ECost.fin_le_fin]
        linarith

theorem sum_comp_eq_sum_image (w : Nat → ℤ) (m : Nat → Nat) (n : Nat)
    (hinj : ∀ i1 < n, ∀ i2 < n, m i1 = m i2 → i1 = i2) :
    ∑ i ∈ Finset.range n, w (m i) = ∑ j ∈ (Finset.range n).image m, w j := by
  have hinj2 : ∀ x ∈ Finset.range n, ∀ y ∈ Finset.range n, m x = m y → x = y := by
    intro x hx y hy hxy
    exact hinj x (Finset.mem_range.mp hx) y (Finset.mem_range.mp hy) hxy
  rw [Finset.sum_image hinj2]

theorem sum_range_le_sum_subset (w : Nat → ℤ) (t : Finset Nat) (nc : Nat)
    (hsub : t ⊆ Finset.range nc) (hw : ∀ j < nc, w j ≤ 0) :
    ∑ j ∈ Finset.range nc, w j ≤ ∑ j ∈ t, w j := by
  have h2 : ∑ j ∈ Finset.range nc \ t, w j + ∑ j ∈ t, w j =
      ∑ j ∈ Finset.range nc, w j := Finset.sum_sdiff hsub
  have h3 : ∑ j ∈ Finset.range nc \ t, w j ≤ 0 := by
    apply Finset.sum_nonpos
    intro j hj
    exact hw j (Finset.mem_range.mp (Finset.mem_sdiff.mp hj).1)
  linarith

theorem sum_range_eq_sum_subset_of_zero (w : Nat → ℤ) (t : Finset Nat) (nc : Nat)
    (hsub : t ⊆ Finset.range nc) (hz : ∀ j < nc, j ∉ t → w j = 0) :
    ∑ j ∈ Finset.range nc, w j = ∑ j ∈ t, w j := by
  have h2 : ∑ j ∈ Finset.range nc \ t, w j + ∑ j ∈ t, w j =
      ∑ j ∈ Finset.range nc, w j := Finset.sum_sdiff hsub
  have h3 : ∑ j ∈ Finset.range nc \ t, w j = 0 := by
    apply Finset.sum_eq_zero
    intro j hj
    have hj2 := Finset.mem_sdiff.mp hj
    exact hz j (Finset.mem_range.mp hj2.1) hj2.2
  linarith

/-- Weak-duality optimality of a successful `_solve` run: its assignment
has minimal total cost among all injective assignments of the rows. -/
theorem solveTuple_optimal (C : Nat → Nat → ECost) (nr nc : Nat)
    (r4c c4r : List Int) (u v : List ℤ)
    (h : solveTuple C nr nc = .ok (r4c, c4r, u, v))
    (g : Nat → Nat) (hg : ∀ i < nr, g i < nc)
    (hginj : ∀ i1 < nr, ∀ i2 < nr, g i1 = g i2 → i1 = i2) :
    assignCost C (fun i => (getI c4r i).toNat) nr ≤ assignCost C g nr := by
  obtain ⟨hl1, hl2, hl3, hl4, hrng, hrrng, hcinj, hinvj, hinvi, hfeas, htight, hvnp, hvz⟩ :=
    solveTuple_master C nr nc r4c c4r u v h
  have hjm_lt : ∀ i < nr, (getI c4r i).toNat < nc := by
    intro i hi
    have := hrng i hi
    omega
  have hjm_inj : ∀ i1 < nr, ∀ i2 < nr,
      (getI c4r i1).toNat = (getI c4r i2).toNat → i1 = i2 := by
    intro i1 hi1 i2 hi2 he
    refine hcinj i1 hi1 i2 hi2 ?_
    have h1 := hrng i1 hi1
    have h2 := hrng i2 hi2
    omega
  have hA : assignCost C (fun i => (getI c4r i).toNat) nr =
      ECost.fin (∑ i ∈ Finset.range nr, (getQ u i + getQ v (getI c4r i).toNat)) := by
    unfold assignCost
    exact sumCost_fin _ _ nr (fun i hi => htight i hi)
  have hB : ECost.fin (∑ i ∈ Finset.range nr, (getQ u i + getQ v (g i))) ≤
      assignCost C g nr := by
    unfold assignCost
    exact sumCost_mono _ _ nr (fun i hi => hfeas i hi (g i) (hg i hi))
  have himg1 : (Finset.range nr).image (fun i => (getI c4r i).toNat) ⊆
      Finset.range nc := by
    intro j hj
    obtain ⟨i, hi, he⟩ := Finset.mem_image.mp hj
    rw [Finset.mem_range, ← he]
    exact hjm_lt i (Finset.mem_range.mp hi)
  have himg2 : (Finset.range nr).image g ⊆ Finset.range nc := by
    intro j hj
    obtain ⟨i, hi, he⟩ := Finset.mem_image.mp hj
    rw [Finset.mem_range, ← he]
    exact hg i (Finset.mem_range.mp hi)
  have hzero : ∀ j < nc, j ∉ (Finset.range nr).image (fun i => (getI c4r i).toNat) →
      getQ v j = 0 := by
    intro j hj hnot
    apply hvz j hj
    by_cases hne : getI r4c j = -1
    · exact hne
    · exfalso
      apply hnot
      have hj2 := hinvj j hj hne
      have hb := hrrng j hj
      refine Finset.mem_image.mpr ⟨(getI r4c j).toNat, Finset.mem_range.mpr ?_, ?_⟩
      · rcases hb with hb | hb
        · exact absurd hb hne
        · omega
      · rw [hj2]
        omega
  have hvsum1 : ∑ i ∈ Finset.range nr, getQ v (getI c4r i).toNat =
      ∑ j ∈ Finset.range nc, getQ v j := by
    rw [sum_comp_eq_sum_image (getQ v) _ nr hjm_inj]
    exact (sum_range_eq_sum_subset_of_zero (getQ v) _ nc himg1 hzero).symm
  have hvsum2 : ∑ j ∈ Finset.range nc, getQ v j ≤
      ∑ i ∈ Finset.range nr, getQ v (g i) := by
    rw [sum_comp_eq_sum_image (getQ v) g nr hginj]
    exact sum_range_le_sum_subset (getQ v) _ nc himg2 hvnp
  have hAB : (∑ i ∈ Finset.range nr, (getQ u i + getQ v (getI c4r i).toNat)) ≤
      ∑ i ∈ Finset.range nr, (getQ u i + getQ v (g i)) := by
    rw [Finset.sum_add_distrib, Finset.sum_add_distrib]
    have h1 := hvsum1
    have h2 := hvsum2
    linarith
  rw [hA]
  refine ECost.eleTrans ?_ hB
  rw [ECost.fin_le_fin]
  exact hAB

/-! Helpers for the infeasibility and loop-structure claims. -/

theorem scanGo_inf_lowest (C : Nat → Nat → ECost) (row4col : List Int)
    (u v : List ℤ) (ri : Nat) (mv : ℤ) :
    ∀ cols it acc, (∀ j ∈ cols, C ri j = ECost.inf) →
      (∀ j ∈ cols, getE acc.spc j = ECost.inf) → acc.lowest = ECost.inf →
      (scanGo C row4col u v ri mv cols it acc).lowest = ECost.inf := by
  intro cols
  induction cols with
  | nil =>
    intro it acc _ _ h3
    exact h3
  | cons j rest ih =>
    intro it acc h1 h2 h3
    rw [scanGo_cons]
    have hrel : relax C u v ri mv j = ECost.inf := by
      unfold relax
      rw [h1 j (by simp)]
      rfl
    have hlt : ¬ (relax C u v ri mv j < getE acc.spc j) := by
      rw [hrel]
      exact ECost.not_inf_lt _
    simp only [if_neg hlt]
    have hj : getE acc.spc j = ECost.inf := h2 j (by simp)
    refine ih (it + 1) _ (fun c hc => h1 c (by simp [hc]))
      (fun c hc => h2 c (by simp [hc])) ?_
    show (if getE acc.spc j < acc.lowest ∨
          (getE acc.spc j = acc.lowest ∧ getI row4col j = -1)
        then getE acc.spc j else acc.lowest) = ECost.inf
    split
    · exact hj
    · exact h3

theorem searchStep_infeasible_of_lowest_inf (C : Nat → Nat → ECost)
    (row4col : List Int) (u v : List ℤ) (st : IterState)
    (h : (scanGo C row4col u v st.row_idx st.minVal st.remaining 0
        ⟨st.path, st.spc, ECost.inf, none⟩).lowest = ECost.inf) :
    searchStep C row4col u v st = .infeasible := by
  rw [searchStep_eq]
  rcases hidx : (scanGo C row4col u v st.row_idx st.minVal st.remaining 0
      ⟨st.path, st.spc, ECost.inf, none⟩).index with _ | it
  · rfl
  · simp only [if_pos h]

theorem solveGo_foldlM (C : Nat → Nat → ECost) (nr nc : Nat) :
    ∀ count r s, solveGo C nr nc count r s =
      (List.range' r count).foldlM (fun s1 r1 => augment C nr nc r1 s1) s := by
  intro count
  induction count with
  | zero =>
    intro r s
    rfl
  | succ n ih =>
    intro r s
    rw [List.range'_succ, List.foldlM_cons, solveGo_succ]
    rcases hA : augment C nr nc r s with e | s2
    · rfl
    · exact ih (r + 1) s2

/-! The claims. -/

/-- C1: whenever `_solve` returns, `col4row` is an injective assignment
of the rows into the columns whose total cost is minimal among all
injective assignments of rows to columns. -/
theorem C1_solve_minimizes (C : Nat → Nat → ECost) (nr nc : Nat)
    (r4c c4r : List Int) (u v : List ℤ)
    (h : solveTuple C nr nc = .ok (r4c, c4r, u, v))
    (g : Nat → Nat) (hg : ∀ i < nr, g i < nc)
    (hginj : ∀ i1 < nr, ∀ i2 < nr, g i1 = g i2 → i1 = i2) :
    (∀ i < nr, (getI c4r i).toNat < nc) ∧
    (∀ i1 < nr, ∀ i2 < nr, (getI c4r i1).toNat = (getI c4r i2).toNat → i1 = i2) ∧
    assignCost C (fun i => (getI c4r i).toNat) nr ≤ assignCost C g nr := by
  obtain ⟨_, _, _, _, hrng, _, hcinj, _, _, _, _, _, _⟩ :=
    solveTuple_master C nr nc r4c c4r u v h
  refine ⟨?_, ?_, solveTuple_optimal C nr nc r4c c4r u v h g hg hginj⟩
  · intro i hi
    have := hrng i hi
    omega
  · intro i1 h1 i2 h2 he
    refine hcinj i1 h1 i2 h2 ?_
    have := hrng i1 h1
    have := hrng i2 h2
    omega

theorem C1_solve_minimizes_witness :
    assignCost (matOf [[ECost.fin 0]]) (fun i => (getI [0] i).toNat) 1 ≤
      assignCost (matOf [[ECost.fin 0]]) (fun _ => 0) 1 :=
  (C1_solve_minimizes (matOf [[ECost.fin 0]]) 1 1 [0] [0] [0] [0] rfl
    (fun _ => 0) (by decide) (by decide)).2.2

/-- C2: after a successful solve, every finite entry has nonnegative
reduced cost `C[i,j] - u[i] - v[j] ≥ 0`, and every row's assigned edge
is tight. -/
theorem C2_duals_feasible_tight (C : Nat → Nat → ECost) (nr nc : Nat)
    (r4c c4r : List Int) (u v : List ℤ)
    (h : solveTuple C nr nc = .ok (r4c, c4r, u, v)) :
    (∀ i < nr, ∀ j < nc, ∀ q : ℤ, C i j = ECost.fin q →
      0 ≤ q - getQ u i - getQ v j) ∧
    (∀ i < nr, C i (getI c4r i).toNat =
      ECost.fin (getQ u i + getQ v (getI c4r i).toNat)) := by
  obtain ⟨_, _, _, _, _, _, _, _, _, hfeas, htight, _, _⟩ :=
    solveTuple_master C nr nc r4c c4r u v h
  refine ⟨?_, htight⟩
  intro i hi j hj q hq
  have hf := hfeas i hi j hj
  rw [hq] at hf
  have h2 := ECost.fin_le_fin.mp hf
  omega

theorem C2_duals_feasible_tight_witness :
    (∀ i < 1, ∀ j < 1, ∀ q : ℤ, matOf [[ECost.fin 0]] i j = ECost.fin q →
      0 ≤ q - getQ [0] i - getQ [0] j) ∧
    (∀ i < 1, matOf [[ECost.fin 0]] i (getI [0] i).toNat =
      ECost.fin (getQ [0] i + getQ [0] (getI [0] i).toNat)) :=
  C2_duals_feasible_tight (matOf [[ECost.fin 0]]) 1 1 [0] [0] [0] [0] rfl

/-- C3: the claim fails on the code as written: on the 3×3 constant
matrix of 5s the solver returns `col4row = [2,1,0]`, not the identity.
The active `remaining[it] = it` initialisation (ascending), combined
with the prefer-unassigned tie-break scanning `remaining` in order,
assigns each new row the highest-indexed free column. -/
theorem C3_constant_matrix_not_identity :
    solveTuple (matOf [[ECost.fin 5, ECost.fin 5, ECost.fin 5],
        [ECost.fin 5, ECost.fin 5, ECost.fin 5],
        [ECost.fin 5, ECost.fin 5, ECost.fin 5]]) 3 3 =
      .ok ([2, 1, 0], [2, 1, 0], [5, 5, 5], [0, 0, 0]) ∧
    ¬ (∀ i < 3, getI [2, 1, 0] i = Int.ofNat i) := ⟨rfl, by decide⟩

/-- C4: when the column scan of a search iteration leaves `lowest` at
`+inf` (no finite augmenting edge), the search loop raises the
infeasible error; in particular `augment` on a row whose costs are all
`+inf` returns the infeasible error instead of an assignment. -/
theorem C4_infeasible_raised (C : Nat → Nat → ECost) (row4col : List Int)
    (u v : List ℤ) (fuel iters : Nat) (st : IterState)
    (hlow : (scanGo C row4col u v st.row_idx st.minVal st.remaining 0
        ⟨st.path, st.spc, ECost.inf, none⟩).lowest = ECost.inf) :
    searchLoop C row4col u v (fuel + 1) st iters = .error .infeasible ∧
    (∀ nr nc cur_row s, (∀ j < nc, C cur_row j = ECost.inf) →
      augment C nr nc cur_row s = .error .infeasible) := by
  constructor
  · rw [searchLoop_succ,
      searchStep_infeasible_of_lowest_inf C row4col u v st hlow]
  · intro nr nc cur_row s hrow
    rw [augment_eq]
    have hl : (scanGo C s.row4col s.u s.v cur_row 0 (List.range nc) 0
        ⟨List.replicate nc (-1), List.replicate nc ECost.inf,
          ECost.inf, none⟩).lowest = ECost.inf := by
      refine scanGo_inf_lowest C s.row4col s.u s.v cur_row 0 (List.range nc) 0 _
        (fun j hj => hrow j (List.mem_range.mp hj)) (fun j hj => ?_) rfl
      unfold getE
      rw [getD_replicate]
      split <;> rfl
    have hstep := searchStep_infeasible_of_lowest_inf C s.row4col s.u s.v
      ⟨List.range nc, List.replicate nr false, List.replicate nc false,
        List.replicate nc (-1), List.replicate nc ECost.inf, cur_row, 0⟩ hl
    rw [searchLoop_succ, hstep]

theorem C4_infeasible_raised_witness :
    searchLoop (matOf [[ECost.inf, ECost.inf], [ECost.fin 1, ECost.fin 2]])
        [-1, -1] [0, 0] [0, 0] 3
        ⟨[0, 1], [false, false], [false, false], [-1, -1],
          [ECost.inf, ECost.inf], 0, 0⟩ 0 = .error .infeasible ∧
    augment (matOf [[ECost.inf, ECost.inf], [ECost.fin 1, ECost.fin 2]]) 2 2 0
      ⟨[-1, -1], [-1, -1], [0, 0], [0, 0]⟩ = .error .infeasible := by
  have h := C4_infeasible_raised
    (matOf [[ECost.inf, ECost.inf], [ECost.fin 1, ECost.fin 2]])
    [-1, -1] [0, 0] [0, 0] 2 0
    ⟨[0, 1], [false, false], [false, false], [-1, -1],
      [ECost.inf, ECost.inf], 0, 0⟩ (by decide)
  exact ⟨h.1, h.2 2 2 0 ⟨[-1, -1], [-1, -1], [0, 0], [0, 0]⟩ (by decide)⟩

/-- C5 (amended): the binding's validation raises a shape error exactly
when the array is not 2-D or a dimension is zero; contrary to the spec
there is no `nc < nr` check, so a matrix with more rows than columns
passes validation. -/
theorem C5_shape_validation (ndims nr nc : Nat) :
    (∃ e, pyLapjvValidate ndims nr nc = .error e) ↔
      (ndims ≠ 2 ∨ nr = 0 ∨ nc = 0) := by
  unfold pyLapjvValidate
  by_cases h1 : ndims ≠ 2
  · rw [if_pos h1]
    exact ⟨fun _ => Or.inl h1, fun _ => ⟨.notTwoD, rfl⟩⟩
  · rw [if_neg h1]
    by_cases h2 : nr = 0 ∨ nc = 0
    · rw [if_pos h2]
      exact ⟨fun _ => Or.inr h2, fun _ => ⟨.badDims, rfl⟩⟩
    · rw [if_neg h2]
      constructor
      · rintro ⟨e, he⟩
        exact absurd he (by simp)
      · intro hor
        rcases hor with h | h
        · exact absurd h h1
        · exact absurd h h2

/-- A 2-D 3×1 cost matrix (more rows than columns) passes validation,
refuting the spec's `nc < nr` clause. -/
theorem C5_shape_validation_counterexample :
    pyLapjvValidate 2 3 1 = .ok () := rfl

/-- C6: in the dual update a scanned row receives the plain increment
`minVal` exactly when it is the originally free row `cur_row`; every
other scanned row receives `minVal - shortestPathCosts[col4row[i]]`. -/
theorem C6_plain_increment_exactly_cur_row (SR : List Bool) (cur_row : Nat)
    (mv : ℤ) (spc : List ECost) (c4r : List Int) (u : List ℤ) (i : Nat)
    (hi : i < u.length) (hsr : getB SR i = true) :
    getQ (updateU SR cur_row mv spc c4r u) i =
      (if i = cur_row then getQ u i + mv
       else getQ u i + (mv - (getE spc (getI c4r i).toNat).toZ)) :=
  updateU_sr SR cur_row mv spc c4r u i hi hsr

theorem C6_plain_increment_exactly_cur_row_witness :
    getQ (updateU [true, true] 0 5 [ECost.fin 2] [0, 0] [10, 20]) 0 =
      (if 0 = 0 then (10 : ℤ) + 5 else 10 + (5 - (getE [ECost.fin 2] (getI ([0, 0] : List Int) 0).toNat).toZ)) ∧
    getQ (updateU [true, true] 0 5 [ECost.fin 2] [0, 0] [10, 20]) 1 =
      (if 1 = 0 then (20 : ℤ) + 5 else 20 + (5 - (getE [ECost.fin 2] (getI ([0, 0] : List Int) 1).toNat).toZ)) :=
  ⟨C6_plain_increment_exactly_cur_row [true, true] 0 5 [ECost.fin 2] [0, 0]
      [10, 20] 0 (by decide) (by decide),
    C6_plain_increment_exactly_cur_row [true, true] 0 5 [ECost.fin 2] [0, 0]
      [10, 20] 1 (by decide) (by decide)⟩

/-- C7: `_solve` zero-initialises `u` (length nr) and `v` (length nc),
sets `col4row` (length nr) and `row4col` (length nc) to all `-1`, folds
`augment` over the rows `0, ..., nr-1` in ascending order (propagating
the error monadically), and returns the tuple
`(row4col, col4row, u, v)`. -/
theorem C7_solve_structure (C : Nat → Nat → ECost) (nr nc : Nat) :
    solveTuple C nr nc =
      ((List.range nr).foldlM (fun s r => augment C nr nc r s)
        ⟨List.replicate nc (-1), List.replicate nr (-1),
          List.replicate nr 0, List.replicate nc 0⟩).map
        (fun s => (s.row4col, s.col4row, s.u, s.v)) := by
  rw [solveTuple_eq, solveGo_foldlM C nr nc nr 0, List.range_eq_range']

/-- C8 (amended with the hypothesis that `cur_row` is unassigned on
entry, which the claim's unqualified wording omits): for every state
satisfying the assignment and dual-feasibility invariants (well-formed
arrays, mutual partial injection between `col4row` and `row4col`, dual
feasibility on assigned rows, tightness of assigned edges), a normal
return of `augment` has `col4row[cur_row] ≠ -1`, re-establishes those
invariants, and increases the number of assigned rows by exactly
one. -/
theorem C8_augment_postcondition (C : Nat → Nat → ECost) (nr nc cur_row : Nat)
    (s s1 : LapState) (hok : StateOK C nr nc s) (hcur : cur_row < nr)
    (hfree : getI s.col4row cur_row = -1) (htight : Tight C nr s)
    (hA : augment C nr nc cur_row s = .ok s1) :
    getI s1.col4row cur_row ≠ -1 ∧ StateOK C nr nc s1 ∧ Tight C nr s1 ∧
    ((Finset.range nr).filter (fun i => getI s1.col4row i ≠ -1)).card =
      ((Finset.range nr).filter (fun i => getI s.col4row i ≠ -1)).card + 1 := by
  obtain ⟨hok1, ht1, _, _, riff, hcur1⟩ :=
    augment_master C nr nc cur_row s s1 hok hcur hfree htight hA
  refine ⟨hcur1, hok1, ht1, ?_⟩
  have hset : (Finset.range nr).filter (fun i => getI s1.col4row i ≠ -1) =
      insert cur_row ((Finset.range nr).filter (fun i => getI s.col4row i ≠ -1)) := by
    ext x
    simp only [Finset.mem_filter, Finset.mem_insert, Finset.mem_range]
    constructor
    · rintro ⟨hx, hne⟩
      rcases (riff x hx).mp hne with h1 | h1
      · exact Or.inr ⟨hx, h1⟩
      · exact Or.inl h1
    · rintro (h1 | ⟨hx, hne⟩)
      · subst h1
        exact ⟨hcur, (riff x hcur).mpr (Or.inr rfl)⟩
      · exact ⟨hx, (riff x hx).mpr (Or.inl hne)⟩
  have hnot : cur_row ∉ (Finset.range nr).filter (fun i => getI s.col4row i ≠ -1) := by
    intro hmem
    exact (Finset.mem_filter.mp hmem).2 hfree
  rw [hset, Finset.card_insert_of_not_mem hnot]

theorem C8_augment_postcondition_witness :
    getI [0] 0 ≠ -1 ∧ StateOK (matOf [[ECost.fin 0]]) 1 1 ⟨[0], [0], [0], [0]⟩ ∧
    Tight (matOf [[ECost.fin 0]]) 1 ⟨[0], [0], [0], [0]⟩ ∧
    ((Finset.range 1).filter (fun i => getI [0] i ≠ -1)).card =
      ((Finset.range 1).filter (fun i => getI [-1] i ≠ -1)).card + 1 :=
  C8_augment_postcondition (matOf [[ECost.fin 0]]) 1 1 0
    ⟨[-1], [-1], [0], [0]⟩ ⟨[0], [0], [0], [0]⟩
    ⟨by decide, by decide, by decide, by decide, by decide, by decide,
      by decide, by decide, by decide⟩
    (by decide) (by decide) (by decide) rfl

/-- The unamended claim is false: called on an already-assigned
`cur_row` (all other invariants holding), `augment` can break the
partial injection.  Here row 0 is assigned column 0 on entry; on return
both columns point at row 0 while `col4row[0] = 1`. -/
theorem C8_counterexample :
    augment (matOf [[ECost.fin 0, ECost.fin 0]]) 1 2 0
      ⟨[0, -1], [0], [0], [0, 0]⟩ = .ok ⟨[0, 0], [1], [0], [0, 0]⟩ ∧
    getI [1] (getI [0, 0] 0).toNat ≠ 0 := ⟨rfl, by decide⟩

/-- C9: a successful `augment` changes `u` only at rows of the final
search set `SR` and `v` only at columns of the final `SC`; the cost
matrix is a pure input of the embedding and is never written. -/
theorem C9_frame (C : Nat → Nat → ECost) (nr nc cur_row : Nat)
    (s s1 : LapState) (R : SearchResult)
    (hS : searchLoop C s.row4col s.u s.v (nc + 1)
      ⟨List.range nc, List.replicate nr false, List.replicate nc false,
        List.replicate nc (-1), List.replicate nc ECost.inf, cur_row, 0⟩ 0 = .ok R)
    (hA : augment C nr nc cur_row s = .ok s1) :
    (∀ i, getB R.SR i = false → getQ s1.u i = getQ s.u i) ∧
    (∀ j, getB R.SC j = false → getQ s1.v j = getQ s.v j) := by
  rw [augment_eq, hS] at hA
  simp only [] at hA
  rcases hF : flipGo R.path cur_row (nc + 1) s.row4col s.col4row R.sink with e | pq
  · rw [hF] at hA
    exact absurd hA (by simp)
  rw [hF] at hA
  simp only [] at hA
  have hu : s1.u = updateU R.SR cur_row R.minVal R.spc s.col4row s.u := by
    injection hA with h1
    rw [← h1]
  have hv : s1.v = updateV R.SC R.minVal R.spc s.v := by
    injection hA with h1
    rw [← h1]
  constructor
  · intro i hi
    rw [hu]
    exact updateU_frame R.SR cur_row R.minVal R.spc s.col4row s.u i hi
  · intro j hj
    rw [hv]
    exact updateV_frame R.SC R.minVal R.spc s.v j hj

theorem C9_frame_witness :
    (∀ i, getB [true] i = false →
      getQ ([0] : List ℤ) i = getQ ([0] : List ℤ) i) ∧
    (∀ j, getB [true, false] j = false →
      getQ ([0, 0] : List ℤ) j = getQ ([0, 0] : List ℤ) j) :=
  C9_frame (matOf [[ECost.fin 0, ECost.fin 7]]) 1 2 0
    ⟨[-1, -1], [-1], [0], [0, 0]⟩ ⟨[0, -1], [0], [0], [0, 0]⟩
    ⟨[0, 0], [ECost.fin 0, ECost.fin 7], [true], [true, false], 0, 0, 1⟩
    rfl rfl

/-- C10 (amended): each continuing iteration of the search loop removes
exactly one column from `remaining`, and the search loop itself always
terminates, in at most `remaining.length` further iterations, whenever
its fuel exceeds `remaining.length`; contrary to the claim, `augment`
as a whole need not terminate normally, because the subsequent
augmentation walk can cycle (see the counterexample). -/
theorem C10_search_removes_one_column (C : Nat → Nat → ECost)
    (row4col : List Int) (u v : List ℤ) :
    (∀ st st1, searchStep C row4col u v st = .again st1 →
      st1.remaining.length + 1 = st.remaining.length) ∧
    (∀ fuel st iters, st.remaining.length < fuel →
      searchLoop C row4col u v fuel st iters ≠ .error .outOfFuel ∧
      (∀ R, searchLoop C row4col u v fuel st iters = .ok R →
        R.iters ≤ iters + st.remaining.length)) :=
  ⟨fun st st1 h => searchStep_again_shrinks C row4col u v st st1 h,
    fun fuel st iters h => searchLoop_fuel C row4col u v fuel st iters h⟩

/-- The claim's "augment terminates" clause is false in general: on this
state (reachable only outside `_solve`'s invariants) the search
succeeds without ever signalling infeasibility, yet the augmentation
walk cycles and `augment` exhausts its fuel. -/
theorem C10_flip_cycle_counterexample :
    searchLoop (matOf [[ECost.fin 0, ECost.fin 10, ECost.fin 10],
        [ECost.fin 0, ECost.fin 0, ECost.fin 0]]) [1, 1, -1] [0, 0] [0, 0, 0] 4
      ⟨[0, 1, 2], [false, false], [false, false, false], [-1, -1, -1],
        [ECost.inf, ECost.inf, ECost.inf], 0, 0⟩ 0 =
      .ok ⟨[0, 1, 1], [ECost.fin 0, ECost.fin 0, ECost.fin 0], [true, true],
        [true, false, true], 2, 0, 2⟩ ∧
    augment (matOf [[ECost.fin 0, ECost.fin 10, ECost.fin 10],
        [ECost.fin 0, ECost.fin 0, ECost.fin 0]]) 2 3 0
      ⟨[1, 1, -1], [0, 1], [0, 0], [0, 0, 0]⟩ = .error .outOfFuel :=
  ⟨rfl, rfl⟩
